import Mathlib

/-!
rbase: atomic operations, semaphores and string functions

A shallow embedding of `inc/atomic.h`, of the three semaphores of
`inc/semaphore.h` (the mutex + condition variable + counter emulation, the
Windows one and the native POSIX one), and of `inc/strings.h`.

* A memory location is the signed integer it holds; an operation on it is a
  function from the held value to the pair (returned value, value held
  afterwards). Every operation is one indivisible read-modify-write, so an
  interleaving of operations of several threads is a list of operations.
* Fixed-width arithmetic is `Int` arithmetic followed by `wrap`, the reduction
  to the two's complement range of the width.
* The results of the pthread, Win32 and `sem_*` calls are inputs of the
  semaphore models.
* A character array is the list of its characters; a read or write outside it
  ends the run with `Run.out_of_bounds`.
-/

namespace rtm

/-! ## Fixed-width integers -/

/-- The two operand widths of the overloads: `int32_t` and `int64_t`. -/
inductive Width where
  | w32
  | w64
  deriving DecidableEq, Repr

/-- The modulus 2^32 or 2^64 of a width. -/
def Width.modulus : Width → Int
  | .w32 => 4294967296
  | .w64 => 18446744073709551616

/-- Half of the modulus: 2^31 or 2^63. -/
def Width.half : Width → Int
  | .w32 => 2147483648
  | .w64 => 9223372036854775808

/-- Reduction of an integer to the two's complement range of the width. -/
def wrap (w : Width) (x : Int) : Int :=
  (x + w.half) % w.modulus - w.half

/-- The values a signed integer of the width can hold. -/
def InRange (w : Width) (x : Int) : Prop :=
  -w.half ≤ x ∧ x < w.half

instance (w : Width) (x : Int) : Decidable (InRange w x) := by
  unfold InRange; infer_instance

/-- The compiler branch of the `#if` chains of `atomic.h`:
`RTM_COMPILER_GCC || RTM_COMPILER_CLANG`, or `RTM_COMPILER_MSVC`. -/
inductive Compiler where
  | gcc
  | msvc
  deriving DecidableEq, Repr

/-! ## Compiler primitives

The builtins and intrinsics `atomic.h` calls, each with the behaviour its
vendor documents. All take the value held at the location and give
(returned value, value held afterwards). -/

/-- GCC `__sync_fetch_and_add`: adds, returns the value held before. -/
def __sync_fetch_and_add (w : Width) (cur add : Int) : Int × Int :=
  (cur, wrap w (cur + add))

/-- GCC `__sync_fetch_and_sub`: subtracts, returns the value held before. -/
def __sync_fetch_and_sub (w : Width) (cur sub : Int) : Int × Int :=
  (cur, wrap w (cur - sub))

/-- GCC `__sync_lock_test_and_set`: stores the value, returns the previous
contents. -/
def __sync_lock_test_and_set (cur value : Int) : Int × Int :=
  (cur, value)

/-- GCC `__sync_val_compare_and_swap (ptr, oldval, newval)`: stores `newval`
when the location holds `oldval`; returns the contents before the operation. -/
def __sync_val_compare_and_swap (cur oldval newval : Int) : Int × Int :=
  (cur, if cur = oldval then newval else cur)

/-- MSVC `_InterlockedIncrement` / `_InterlockedIncrement64`: increments, and
the return value is the resulting incremented value. -/
def _InterlockedIncrement (w : Width) (cur : Int) : Int × Int :=
  (wrap w (cur + 1), wrap w (cur + 1))

/-- MSVC `_InterlockedDecrement` / `_InterlockedDecrement64`: decrements, and
the return value is the resulting decremented value. -/
def _InterlockedDecrement (w : Width) (cur : Int) : Int × Int :=
  (wrap w (cur - 1), wrap w (cur - 1))

/-- MSVC `_InterlockedExchangeAdd` / `_InterlockedExchangeAdd64`: adds, and
the return value is the initial value. -/
def _InterlockedExchangeAdd (w : Width) (cur value : Int) : Int × Int :=
  (cur, wrap w (cur + value))

/-- MSVC `_InterlockedExchange` / `_InterlockedExchange64`: stores the value,
returns the initial value. -/
def _InterlockedExchange (cur value : Int) : Int × Int :=
  (cur, value)

/-- MSVC `_InterlockedCompareExchange (Destination, Exchange, Comparand)`:
stores `Exchange` when the destination holds `Comparand`; returns the initial
value of the destination. -/
def _InterlockedCompareExchange (cur exchange comparand : Int) : Int × Int :=
  (cur, if cur = comparand then exchange else cur)

/-! ## atomic.h -/

/-- `interlockedInc(_value)`, both overloads. -/
def interlockedInc (c : Compiler) (w : Width) (cur : Int) : Int × Int :=
  match c with
  | .gcc => __sync_fetch_and_add w cur 1
  | .msvc => _InterlockedIncrement w cur

/-- `interlockedDec(_value)`, both overloads. -/
def interlockedDec (c : Compiler) (w : Width) (cur : Int) : Int × Int :=
  match c with
  | .gcc => __sync_fetch_and_add w cur (-1)
  | .msvc => _InterlockedDecrement w cur

/-- `interlockedAdd(_value, _add)`, both overloads. -/
def interlockedAdd (c : Compiler) (w : Width) (cur _add : Int) : Int × Int :=
  match c with
  | .gcc => __sync_fetch_and_add w cur _add
  | .msvc => _InterlockedExchangeAdd w cur _add

/-- `interlockedSub(_value, _sub)`, both overloads. The MSVC branch negates
`_sub` in the operand type; the negation is reduced to the width. -/
def interlockedSub (c : Compiler) (w : Width) (cur _sub : Int) : Int × Int :=
  match c with
  | .gcc => __sync_fetch_and_sub w cur _sub
  | .msvc => _InterlockedExchangeAdd w cur (wrap w (-_sub))

/-- `interlockedSet(_value, _newValue)`, both overloads. The
`__sync_synchronize()` of the GCC branch is a fence and changes no value. -/
def interlockedSet (c : Compiler) (_w : Width) (cur _newValue : Int) : Int × Int :=
  match c with
  | .gcc => __sync_lock_test_and_set cur _newValue
  | .msvc => _InterlockedExchange cur _newValue

/-- `interlockedCAS(_value, _oldValue, _newValue)`, both overloads. -/
def interlockedCAS (c : Compiler) (_w : Width) (cur _oldValue _newValue : Int) : Int × Int :=
  match c with
  | .gcc => __sync_val_compare_and_swap cur _oldValue _newValue
  | .msvc => _InterlockedCompareExchange cur _newValue _oldValue

/-- One atomic step of a thread in an increment/decrement workload. -/
inductive CounterOp where
  | inc
  | dec
  deriving DecidableEq, Repr

/-- The value held after one atomic step (the returned value is dropped). -/
def CounterOp.apply (c : Compiler) (w : Width) (cur : Int) : CounterOp → Int
  | .inc => (interlockedInc c w cur).2
  | .dec => (interlockedDec c w cur).2

/-- The value held after a whole schedule of atomic steps, first step first. -/
def runCounterOps (c : Compiler) (w : Width) (cur : Int) (ops : List CounterOp) : Int :=
  ops.foldl (CounterOp.apply c w) cur

/-! ## semaphore.h, the emulated semaphore

The branch `RTM_PLATFORM_OSX || RTM_PLATFORM_IOS || RTM_PLATFORM_ANDROID`.
Calls are executed one at a time; the value every pthread call returns is an
input, so that a statement over all inputs covers every behaviour of the
pthread library. -/

/-- The C `timespec`. -/
structure timespec where
  tv_sec : Int
  tv_nsec : Int
  deriving DecidableEq, Repr

/-- The `semaphore_t` of the emulated path. `m_mutex` and `m_cv` are pthread
objects without a value of their own here; `m_count` is an `int32_t`. -/
structure semaphore_t where
  m_count : Int
  deriving DecidableEq, Repr

/-- What a call does, in program order: the pthread calls it issues, its
accesses to `m_count`, and a failed `RTM_ASSERT`. -/
inductive Event where
  | pthread_mutex_lock
  | pthread_mutex_unlock
  | pthread_cond_signal
  | pthread_cond_wait
  | pthread_cond_timedwait (ts : timespec)
  | read_count (v : Int)
  | write_count (v : Int)
  | assert_failed
  deriving DecidableEq, Repr

/-- Whether an event is a condition-variable wait, timed or not. -/
def Event.isCondWait : Event → Bool
  | .pthread_cond_wait => true
  | .pthread_cond_timedwait _ => true
  | _ => false

/-- Build configuration of the emulated path.
`android` is `RTM_PLATFORM_ANDROID`, which enables the timed branch.
Modelled from the spec: `RTM_ASSERT` is defined outside these sources; the
assertion hook "must abort or report rather than corrupt state", so
`assertAborts` tells whether a failed assertion ends the call or is only
reported. -/
structure Platform where
  android : Bool
  assertAborts : Bool
  deriving DecidableEq, Repr

/-- The inputs of one `semaphore_wait` call: the value returned by
`pthread_mutex_lock`, the values returned by the successive condition waits
(when they are used up, the next wait never wakes), the value returned by
`pthread_mutex_unlock`, and the contents of the stack slot that becomes
`ts.tv_sec` (the `memset(&ts, sizeof(timespec), 0)` has length 0 and writes
nothing). -/
structure WaitEnv where
  lock : Int
  conds : List Int
  unlock : Int
  ts_sec : Int
  deriving DecidableEq, Repr

/-- How a call ends. -/
inductive Outcome where
  | returned (value : Bool)
  | blocked
  | aborted
  deriving DecidableEq, Repr

/-- The result of one `semaphore_wait` call. -/
structure WaitResult where
  outcome : Outcome
  sem : semaphore_t
  trace : List Event
  deriving DecidableEq, Repr

/-- The result of one `semaphore_post` call (it returns `void`). -/
structure PostResult where
  sem : semaphore_t
  trace : List Event
  deriving DecidableEq, Repr

/-- `semaphore_init(_sem)`; the arguments are the values returned by
`pthread_mutex_init` and `pthread_cond_init`. -/
def semaphore_init (_sem : semaphore_t) (mutex_init cond_init : Int) : Bool × semaphore_t :=
  if mutex_init ≠ 0 then (false, _sem)
  else if cond_init ≠ 0 then (false, _sem)
  else (true, { m_count := 0 })

/-- `semaphore_post(_sem, _count)`, with `_count` a `uint32_t`. The values
returned by the pthread calls are not looked at. `m_count += _count` is
computed modulo 2^32 and stored as an `int32_t`. -/
def semaphore_post (_sem : semaphore_t) (_count : Nat) : PostResult :=
  { sem := { m_count := wrap .w32 (_sem.m_count + _count) }
    trace := Event.pthread_mutex_lock ::
      (List.replicate _count Event.pthread_cond_signal ++
        [Event.read_count _sem.m_count,
         Event.write_count (wrap .w32 (_sem.m_count + _count)),
         Event.pthread_mutex_unlock]) }

/-- The loop `while (result == 0 && 0 >= _sem->m_count) result = wait(...)`.
`ev` is the wait that the branch uses, `count` the value of `m_count`, which
no other call changes meanwhile. Gives the final `result`, or `none` when a
wait never wakes, and the events of the loop. -/
def condLoop (ev : Event) (count : Int) : List Int → Int → Option Int × List Event
  | [], result =>
    if result ≠ 0 then (some result, [])
    else if 0 < count then (some result, [Event.read_count count])
    else (none, [Event.read_count count, ev])
  | r :: rest, result =>
    if result ≠ 0 then (some result, [])
    else if 0 < count then (some result, [Event.read_count count])
    else
      let next := condLoop ev count rest r
      (next.1, Event.read_count count :: ev :: next.2)

/-- The part of `semaphore_wait` after the branches: `ok`, the decrement, the
unlock and the return. `pre` holds the events before the loop. -/
def waitFinish (_sem : semaphore_t) (env : WaitEnv) (pre : List Event)
    (loop : Option Int × List Event) : WaitResult :=
  match loop.1 with
  | none => { outcome := .blocked, sem := _sem, trace := pre ++ loop.2 }
  | some result =>
    let ok : Bool := result == 0
    let sem : semaphore_t :=
      if ok then { m_count := wrap .w32 (_sem.m_count - 1) } else _sem
    let dec : List Event :=
      if ok then [Event.read_count _sem.m_count,
                  Event.write_count (wrap .w32 (_sem.m_count - 1))] else []
    let result := env.unlock
    { outcome := .returned (result == 0)
      sem := sem
      trace := pre ++ loop.2 ++ dec ++ [Event.pthread_mutex_unlock] }

/-- `semaphore_wait(_sem, _ms)` of the emulated path. -/
def semaphore_wait (p : Platform) (_sem : semaphore_t) (_ms : Int) (env : WaitEnv) :
    WaitResult :=
  let result := env.lock
  if p.android && _ms != -1 then
    let ts : timespec := { tv_sec := env.ts_sec, tv_nsec := wrap .w32 (_ms * 1000) }
    waitFinish _sem env [Event.pthread_mutex_lock]
      (condLoop (Event.pthread_cond_timedwait ts) _sem.m_count env.conds result)
  else if _ms != -1 then
    if p.assertAborts then
      { outcome := .aborted, sem := _sem
        trace := [Event.pthread_mutex_lock, Event.assert_failed] }
    else
      waitFinish _sem env [Event.pthread_mutex_lock, Event.assert_failed]
        (condLoop Event.pthread_cond_wait _sem.m_count env.conds result)
  else
    waitFinish _sem env [Event.pthread_mutex_lock]
      (condLoop Event.pthread_cond_wait _sem.m_count env.conds result)

/-- Sequential `semaphore_wait(_sem, -1)` calls, one per environment; each
starts from the state the previous one left. -/
def waitAll (p : Platform) : semaphore_t → List WaitEnv → List WaitResult
  | _, [] => []
  | s, e :: es =>
    let r := semaphore_wait p s (-1) e
    r :: waitAll p r.sem es

/-- One call on the semaphore. -/
inductive Call where
  | post (_count : Nat)
  | wait (_ms : Int) (env : WaitEnv)
  deriving DecidableEq, Repr

/-- The semaphore together with the sum of the counts posted so far and the
number of `semaphore_wait` calls that have returned `true`. -/
structure Tally where
  sem : semaphore_t
  posted : Nat
  acquired : Nat
  deriving DecidableEq, Repr

/-- Executes one call and updates the tally. -/
def Tally.step (p : Platform) (t : Tally) : Call → Tally
  | .post n =>
    { sem := (semaphore_post t.sem n).sem, posted := t.posted + n, acquired := t.acquired }
  | .wait ms env =>
    let r := semaphore_wait p t.sem ms env
    { sem := r.sem, posted := t.posted,
      acquired := t.acquired + (if r.outcome = Outcome.returned true then 1 else 0) }

/-- Executes calls one at a time from a semaphore with nothing posted. -/
def runCalls (p : Platform) (sem : semaphore_t) (calls : List Call) : Tally :=
  calls.foldl (Tally.step p) { sem := sem, posted := 0, acquired := 0 }

/-- The `ETIMEDOUT` of Linux and Android, which `pthread_cond_timedwait`
returns when the time has passed. -/
def ETIMEDOUT : Int := 110

/-- Whether a call came back to its caller. -/
def Outcome.isReturned : Outcome → Bool
  | .returned _ => true
  | _ => false

/-- Whether an event is a lock or an unlock of the mutex. -/
def Event.isMutexCall : Event → Bool
  | .pthread_mutex_lock => true
  | .pthread_mutex_unlock => true
  | _ => false

/-! ## semaphore.h, the Windows path

The branch `RTM_PLATFORM_WINDOWS`, where `semaphore_t` is a `HANDLE`; a handle
is the number it holds and 0 is the null handle. -/

namespace windows

/-- Win32 `INFINITE`, the timeout 0xFFFFFFFF. -/
def INFINITE : Nat := 4294967295

/-- Win32 `WAIT_OBJECT_0`. -/
def WAIT_OBJECT_0 : Nat := 0

/-- `semaphore_init(_sem)`; the argument is the handle `CreateSemaphore`
returns. Gives the returned value and the handle stored in `*_sem`. -/
def semaphore_init (CreateSemaphore : Nat) : Bool × Nat :=
  (CreateSemaphore != 0, CreateSemaphore)

/-- What `semaphore_wait` hands to `WaitForSingleObject` and what it returns. -/
structure WaitCall where
  dwMilliseconds : Nat
  value : Bool
  deriving DecidableEq, Repr

/-- `semaphore_wait(_sem, _ms)`; `WaitForSingleObject` gives the result of the
Win32 call for the timeout it is passed. A non-negative `int32_t` converts to
`unsigned long` unchanged. -/
def semaphore_wait (_ms : Int) (WaitForSingleObject : Nat → Nat) : WaitCall :=
  let ms : Nat := if 0 > _ms then INFINITE else _ms.toNat
  { dwMilliseconds := ms, value := WAIT_OBJECT_0 == WaitForSingleObject ms }

end windows

/-! ## semaphore.h, the native POSIX path

The last branch, `RTM_PLATFORM_POSIX`, where `semaphore_t` is a `sem_t`. -/

namespace posix

/-- The semaphore primitive `semaphore_wait` ends in. -/
inductive SemCall where
  | sem_wait
  | semaphore_timedwait (ts : timespec)
  deriving DecidableEq, Repr

/-- The primitive `semaphore_wait` calls and the value it returns. -/
structure WaitCall where
  call : SemCall
  value : Bool
  deriving DecidableEq, Repr

/-- `semaphore_init(_sem)`; the argument is the value `sem_init` returns. -/
def semaphore_init (sem_init : Int) : Bool :=
  let result := sem_init
  result == 0

/-- `semaphore_wait(_sem, _ms)`. `nacl` is `RTM_PLATFORM_NACL`, `now` is what
`clock_gettime(CLOCK_REALTIME, &ts)` stores, `sem_wait` the value that call
returns, and `semaphore_timedwait`, which these sources do not define, the
value the timed wait returns for the `timespec` it is handed. The divisions
are those of C, rounding toward zero. -/
def semaphore_wait (nacl : Bool) (_ms : Int) (now : timespec) (sem_wait : Int)
    (semaphore_timedwait : timespec → Int) : WaitCall :=
  if nacl then
    { call := SemCall.sem_wait, value := 0 == sem_wait }
  else if 0 > _ms then
    { call := SemCall.sem_wait, value := 0 == sem_wait }
  else
    let ts : timespec := now
    let ts : timespec := { ts with tv_sec := ts.tv_sec + Int.tdiv _ms 1000 }
    let ts : timespec := { ts with tv_nsec := ts.tv_nsec + Int.tmod _ms 1000 * 1000 }
    { call := SemCall.semaphore_timedwait ts, value := 0 == semaphore_timedwait ts }

end posix

/-- The instant a `timespec` denotes, in nanoseconds. -/
def timespec.nanos (ts : timespec) : Int :=
  ts.tv_sec * 1000000000 + ts.tv_nsec

/-! ## strings.h

A `char` is the integer it holds. A pointer into a character array is the
list of the characters from the pointed one to the end of the array, so that
`*p` is the head of the list, `++p` its tail, and a read at the end of the
list is a read outside the array. A pointer that a function returns is the
index it has from the start of its string argument. -/

/-- How a function of `strings.h` runs: to a value, into an access outside an
array, or into a failed `RTM_ASSERT` that aborts. -/
inductive Run (α : Type) where
  | ok (value : α)
  | out_of_bounds
  | assert_failed
  deriving DecidableEq, Repr

/-- `toNoop(_ch)`. -/
def toNoop (_ch : Int) : Int :=
  _ch

/-- `isUpper(_ch)`, with `'A'` = 65 and `'Z'` = 90. -/
def isUpper (_ch : Int) : Bool :=
  _ch ≥ 65 && _ch ≤ 90

/-- `toLower(_ch)`. The sum is a `char` again: it differs from `_ch` only for
an upper-case letter, where it is at most 122. -/
def toLower (_ch : Int) : Int :=
  _ch + (if isUpper _ch then 0x20 else 0)

/-- `strCmp<fn>(_lhs, _rhs, _max)`. The loop goes on while
`0 < _max && fn(*_lhs) == fn(*_rhs)` and breaks at a NUL on either side; the
characters are read only when `0 < _max`. The final
`0 == _max ? 0 : fn(*_lhs) - fn(*_rhs)` is taken at the place the loop
stopped. -/
def strCmp (fn : Int → Int) : List Int → List Int → Nat → Run Int
  | [], _, _max => if 0 < _max then Run.out_of_bounds else Run.ok 0
  | l :: ls, _rhs, _max =>
    if 0 < _max then
      match _rhs with
      | [] => Run.out_of_bounds
      | r :: rs =>
        if fn l == fn r then
          if l == 0 || r == 0 then Run.ok (fn l - fn r)
          else strCmp fn ls rs (_max - 1)
        else Run.ok (fn l - fn r)
    else Run.ok 0

/-- `strncmp(_lhs, _rhs, _max)`. -/
def strncmp (_lhs _rhs : List Int) (_max : Nat) : Run Int :=
  strCmp toNoop _lhs _rhs _max

/-- `strincmp(_lhs, _rhs, _max)`. -/
def strincmp (_lhs _rhs : List Int) (_max : Nat) : Run Int :=
  strCmp toLower _lhs _rhs _max

/-- The loop `for (; 0 < _max && *ptr != '\0'; ++ptr, --_max)` of `strnlen`;
the third argument is `ptr - _str`, which is also the result. -/
def strnlenLoop : List Int → Nat → Nat → Run Nat
  | [], _max, n => if 0 < _max then Run.out_of_bounds else Run.ok n
  | c :: rest, _max, n =>
    if 0 < _max && c != 0 then strnlenLoop rest (_max - 1) (n + 1) else Run.ok n

/-- `strnlen(_str, _max)`; `none` is the `NULL` pointer. The result is
`int32_t(ptr - _str)`. -/
def strnlen (_str : Option (List Int)) (_max : Nat) : Run Int :=
  match _str with
  | none => Run.ok 0
  | some mem =>
    match strnlenLoop mem _max 0 with
    | Run.ok n => Run.ok (wrap Width.w32 n)
    | Run.out_of_bounds => Run.out_of_bounds
    | Run.assert_failed => Run.assert_failed

/-- The loop "Start comparing" of `strStr`:
`while (fn(*string++) == fn(*search++)) if ('\0' == *search) return ptr;`.
Gives `true` when the function returns `ptr` and `false` when the loop ends. -/
def strStrCompare (fn : Int → Int) : List Int → List Int → Run Bool
  | [], _ => Run.out_of_bounds
  | _ :: _, [] => Run.out_of_bounds
  | a :: as, b :: bs =>
    if fn a == fn b then
      match bs with
      | [] => Run.out_of_bounds
      | b1 :: _ => if 0 == b1 then Run.ok true else strStrCompare fn as bs
    else Run.ok false

/-- The `for` loop of `strStr`, from `ptr` at index `idx` with the given
`stringLen`. `forCheck` tells where the control is: `true` at the test
`stringLen >= findLen` of the `for`, `false` at the test of the inner
`while (fn(*ptr) != fn(*_find))` after one of its rounds. The result is the
index of the returned pointer, or `none` for `NULL`. -/
def strStrLoop (fn : Int → Int) (_find : List Int) (findLen : Int) :
    List Int → Nat → Int → Bool → Run (Option Nat)
  | [], _, stringLen, forCheck =>
    if forCheck && !(stringLen ≥ findLen) then Run.ok none else Run.out_of_bounds
  | c :: rest, idx, stringLen, forCheck =>
    if forCheck && !(stringLen ≥ findLen) then Run.ok none
    else
      match _find with
      | [] => Run.out_of_bounds
      | f0 :: _ =>
        if fn c != fn f0 then
          if findLen > wrap Width.w32 (stringLen - 1) then Run.ok none
          else strStrLoop fn _find findLen rest (idx + 1) (wrap Width.w32 (stringLen - 1)) false
        else
          match strStrCompare fn (c :: rest) _find with
          | Run.ok true => Run.ok (some idx)
          | Run.ok false =>
            strStrLoop fn _find findLen rest (idx + 1) (wrap Width.w32 (stringLen - 1)) true
          | Run.out_of_bounds => Run.out_of_bounds
          | Run.assert_failed => Run.assert_failed

/-- `strStr<fn>(_str, _strMax, _find, _findMax)`. -/
def strStr (fn : Int → Int) (_str : List Int) (_strMax : Nat) (_find : List Int)
    (_findMax : Nat) : Run (Option Nat) :=
  match strnlen (some _str) _strMax with
  | Run.ok stringLen =>
    match strnlen (some _find) _findMax with
    | Run.ok findLen => strStrLoop fn _find findLen _str 0 stringLen true
    | Run.out_of_bounds => Run.out_of_bounds
    | Run.assert_failed => Run.assert_failed
  | Run.out_of_bounds => Run.out_of_bounds
  | Run.assert_failed => Run.assert_failed

/-- `INT32_MAX`. -/
def INT32_MAX : Nat := 2147483647

/-- `strnstr(_str, _find, _max)`; the default `_max = -1` is 4294967295. -/
def strnstr (_str _find : List Int) (_max : Nat) : Run (Option Nat) :=
  strStr toNoop _str _max _find INT32_MAX

/-- `stristr(_str, _find, _max)`. -/
def stristr (_str _find : List Int) (_max : Nat) : Run (Option Nat) :=
  strStr toLower _str _max _find INT32_MAX

/-- The C library `memcpy(_dst, _src, n)` on arrays that do not overlap: the
first `n` characters of `_dst` become those of `_src`. -/
def memcpy (_dst _src : List Int) (n : Nat) : Run (List Int) :=
  if n ≤ _src.length ∧ n ≤ _dst.length then Run.ok (_src.take n ++ _dst.drop n)
  else Run.out_of_bounds

/-- `strlncpy(_dst, _dstSize, _src, _num)`, giving the returned value and the
destination array afterwards. Both pointers are arrays here, so the two
`NULL` assertions hold; `assertAborts` tells whether a failed
`RTM_ASSERT(0 < _dstSize, ...)` ends the call, and `size_t` is the width of
the type `memcpy` takes its length in. -/
def strlncpy (assertAborts : Bool) (size_t : Width) (_dst : List Int) (_dstSize : Int)
    (_src : List Int) (_num : Nat) : Run (Int × List Int) :=
  if assertAborts && !(0 < _dstSize) then Run.assert_failed
  else
    match strnlen (some _src) _num with
    | Run.ok len =>
      let max := wrap Width.w32 (_dstSize - 1)
      let num := if len < max then len else max
      match memcpy _dst _src (num % size_t.modulus).toNat with
      | Run.ok copied =>
        if 0 ≤ num ∧ num < copied.length then Run.ok (num, copied.set num.toNat 0)
        else Run.out_of_bounds
      | Run.out_of_bounds => Run.out_of_bounds
      | Run.assert_failed => Run.assert_failed
    | Run.out_of_bounds => Run.out_of_bounds
    | Run.assert_failed => Run.assert_failed

/-- The characters `s` followed by the terminating NUL: the array of a C
string. -/
def cstr (s : List Int) : List Int :=
  s ++ [0]

/-- Whether the pattern `f` stands at index `i` of `s` within the first
`bound` characters, both sides compared after `fn`. -/
def matchAt (fn : Int → Int) (s f : List Int) (bound i : Nat) : Prop :=
  i + f.length ≤ min s.length bound ∧
    ((s.drop i).take f.length).map fn = f.map fn

instance (fn : Int → Int) (s f : List Int) (bound i : Nat) :
    Decidable (matchAt fn s f bound i) := by
  unfold matchAt; infer_instance

/-! ## Arithmetic of `wrap` -/

theorem wrap_inRange (w : Width) (x : Int) : InRange w (wrap w x) := by
  cases w <;> simp only [InRange, wrap, Width.half, Width.modulus] <;> omega

theorem wrap_modEq (w : Width) (x : Int) : Int.ModEq w.modulus (wrap w x) x := by
  cases w <;> simp only [Int.ModEq, wrap, Width.half, Width.modulus] <;> omega

theorem wrap_of_inRange (w : Width) (x : Int) (h : InRange w x) : wrap w x = x := by
  cases w <;> simp only [InRange, wrap, Width.half, Width.modulus] at * <;> omega

theorem wrap_add_wrap_left (w : Width) (x y : Int) :
    wrap w (wrap w x + y) = wrap w (x + y) := by
  cases w <;> simp only [wrap, Width.half, Width.modulus] <;> omega

theorem wrap_add_wrap_right (w : Width) (x y : Int) :
    wrap w (x + wrap w y) = wrap w (x + y) := by
  cases w <;> simp only [wrap, Width.half, Width.modulus] <;> omega

/-! ## atomic.h: returned and stored values -/

/-- On the GCC/Clang branch `interlockedInc` returns the value held before. -/
theorem interlockedInc_gcc_fst (w : Width) (v : Int) :
    (interlockedInc Compiler.gcc w v).1 = v := rfl

/-- On the GCC/Clang branch `interlockedDec` returns the value held before. -/
theorem interlockedDec_gcc_fst (w : Width) (v : Int) :
    (interlockedDec Compiler.gcc w v).1 = v := rfl

/-- On the MSVC branch `interlockedInc` returns the value held afterwards,
which is never the value held before. -/
theorem interlockedInc_msvc_fst (w : Width) (v : Int) :
    (interlockedInc Compiler.msvc w v).1 = wrap w (v + 1) ∧
      (interlockedInc Compiler.msvc w v).1 ≠ v := by
  refine ⟨rfl, ?_⟩
  show wrap w (v + 1) ≠ v
  cases w <;> simp only [wrap, Width.half, Width.modulus] <;> omega

/-- On the MSVC branch `interlockedDec` returns the value held afterwards,
which is never the value held before. -/
theorem interlockedDec_msvc_fst (w : Width) (v : Int) :
    (interlockedDec Compiler.msvc w v).1 = wrap w (v - 1) ∧
      (interlockedDec Compiler.msvc w v).1 ≠ v := by
  refine ⟨rfl, ?_⟩
  show wrap w (v - 1) ≠ v
  cases w <;> simp only [wrap, Width.half, Width.modulus] <;> omega

/-- On both branches `interlockedInc` stores the value plus one, reduced. -/
theorem interlockedInc_snd (c : Compiler) (w : Width) (v : Int) :
    (interlockedInc c w v).2 = wrap w (v + 1) := by
  cases c <;> rfl

/-- On both branches `interlockedDec` stores the value minus one, reduced. -/
theorem interlockedDec_snd (c : Compiler) (w : Width) (v : Int) :
    (interlockedDec c w v).2 = wrap w (v - 1) := by
  cases c <;> rfl

/-- C1, at the location value 0: the GCC/Clang branch of `interlockedInc` and
`interlockedDec` returns 0, the value held before, while the MSVC branch
returns 1 and -1, the value held after the operation, for both widths. -/
theorem C1_msvc_inc_dec_return_value_after :
    (interlockedInc Compiler.gcc Width.w32 0).1 = 0 ∧
    (interlockedInc Compiler.gcc Width.w64 0).1 = 0 ∧
    (interlockedDec Compiler.gcc Width.w32 0).1 = 0 ∧
    (interlockedDec Compiler.gcc Width.w64 0).1 = 0 ∧
    (interlockedInc Compiler.msvc Width.w32 0).1 = 1 ∧
    (interlockedInc Compiler.msvc Width.w64 0).1 = 1 ∧
    (interlockedDec Compiler.msvc Width.w32 0).1 = -1 ∧
    (interlockedDec Compiler.msvc Width.w64 0).1 = -1 := by
  decide

/-- C2: for every held value `v`, expected value `e` and new value `n`, on
both compiler branches and for both widths, `interlockedCAS` returns `v`, and
the location then holds `n` if `v = e` and still `v` otherwise. -/
theorem C2_interlockedCAS_returns_prior (c : Compiler) (w : Width) (v e n : Int) :
    (interlockedCAS c w v e n).1 = v ∧
      (interlockedCAS c w v e n).2 = if v = e then n else v := by
  cases c <;> exact ⟨rfl, rfl⟩

/-- C3: from a location holding `old`, a first `interlockedCAS(loc, old, new)`
returns `old` and leaves `new`; a second one right after it returns `new` and
leaves `new`. -/
theorem C3_interlockedCAS_twice (c : Compiler) (w : Width) (old new : Int) :
    (interlockedCAS c w old old new).1 = old ∧
    (interlockedCAS c w old old new).2 = new ∧
    (interlockedCAS c w (interlockedCAS c w old old new).2 old new).1 = new ∧
    (interlockedCAS c w (interlockedCAS c w old old new).2 old new).2 = new := by
  have h1 : interlockedCAS c w old old new = (old, new) := by
    cases c <;>
      simp [interlockedCAS, __sync_val_compare_and_swap, _InterlockedCompareExchange]
  have h2 : interlockedCAS c w new old new = (new, new) := by
    cases c <;>
      simp [interlockedCAS, __sync_val_compare_and_swap, _InterlockedCompareExchange]
  rw [h1]
  simp only [h2, and_self]

/-- C4: for every held value `v` and delta `d`, on both compiler branches and
for both widths, `interlockedAdd` returns `v` and leaves the value of the
width that is congruent to `v + d` modulo 2^32 (2^64). -/
theorem C4_interlockedAdd (c : Compiler) (w : Width) (v d : Int) :
    (interlockedAdd c w v d).1 = v ∧
    (interlockedAdd c w v d).2 = wrap w (v + d) ∧
    InRange w (interlockedAdd c w v d).2 ∧
    Int.ModEq w.modulus (interlockedAdd c w v d).2 (v + d) := by
  have h : interlockedAdd c w v d = (v, wrap w (v + d)) := by cases c <;> rfl
  rw [h]
  exact ⟨rfl, rfl, wrap_inRange w _, wrap_modEq w _⟩

/-- C5: for every held value `v` and delta `d` (the minimum of the width
included), the MSVC branch of `interlockedSub`, an exchange-add of the negated
delta, and the GCC/Clang branch, a fetch-and-sub, return the same value `v`
and leave the same value: the one of the width congruent to `v - d` modulo
2^32 (2^64). -/
theorem C5_interlockedSub_branches_agree (w : Width) (v d : Int) :
    interlockedSub Compiler.msvc w v d = interlockedSub Compiler.gcc w v d ∧
    (interlockedSub Compiler.gcc w v d).1 = v ∧
    InRange w (interlockedSub Compiler.gcc w v d).2 ∧
    Int.ModEq w.modulus (interlockedSub Compiler.gcc w v d).2 (v - d) := by
  have hg : interlockedSub Compiler.gcc w v d = (v, wrap w (v - d)) := rfl
  have hm : interlockedSub Compiler.msvc w v d = (v, wrap w (v + wrap w (-d))) := rfl
  rw [hm, hg, wrap_add_wrap_right, ← sub_eq_add_neg]
  exact ⟨rfl, rfl, wrap_inRange w _, wrap_modEq w _⟩

/-- C6: for every held value `v` and new value `n`, on both compiler branches
and for both widths, `interlockedSet` returns `v` and leaves `n`. -/
theorem C6_interlockedSet (c : Compiler) (w : Width) (v n : Int) :
    interlockedSet c w v n = (v, n) := by
  cases c <;> rfl

/-- A schedule of increments and decrements moves the held value by the
number of increments minus the number of decrements, reduced to the width. -/
theorem runCounterOps_wrap (c : Compiler) (w : Width) (ops : List CounterOp) :
    ∀ x : Int, runCounterOps c w (wrap w x) ops =
      wrap w (x + ops.count CounterOp.inc - ops.count CounterOp.dec) := by
  induction ops with
  | nil => intro x; simp [runCounterOps]
  | cons op rest ih =>
    intro x
    have ih2 : ∀ y : Int, List.foldl (CounterOp.apply c w) (wrap w y) rest =
        wrap w (y + rest.count CounterOp.inc - rest.count CounterOp.dec) := ih
    cases op with
    | inc =>
      have hs : CounterOp.apply c w (wrap w x) CounterOp.inc = wrap w (x + 1) := by
        show (interlockedInc c w (wrap w x)).2 = _
        rw [interlockedInc_snd, wrap_add_wrap_left]
      simp only [runCounterOps, List.foldl_cons, hs, ih2]
      congr 1
      simp
      ring
    | dec =>
      have hs : CounterOp.apply c w (wrap w x) CounterOp.dec = wrap w (x - 1) := by
        show (interlockedDec c w (wrap w x)).2 = _
        rw [interlockedDec_snd, sub_eq_add_neg, wrap_add_wrap_left, ← sub_eq_add_neg]
      simp only [runCounterOps, List.foldl_cons, hs, ih2]
      congr 1
      simp
      ring

/-- C7: for every value `v` of the width, and every schedule of atomic steps
with as many `interlockedInc` as `interlockedDec` steps in any order, the
location holds `v` again at the end, on both compiler branches and for both
widths. -/
theorem C7_inc_dec_restore (c : Compiler) (w : Width) (v : Int) (ops : List CounterOp)
    (hv : InRange w v) (hcount : ops.count CounterOp.inc = ops.count CounterOp.dec) :
    runCounterOps c w v ops = v := by
  have h := runCounterOps_wrap c w ops v
  rw [wrap_of_inRange w v hv, hcount] at h
  rw [h, add_sub_cancel_right, wrap_of_inRange w v hv]

/-- C7 at the largest 32-bit value on the MSVC branch, where the increment
wraps: two increments and two decrements, interleaved. -/
theorem C7_inc_dec_restore_witness :
    InRange Width.w32 2147483647 ∧
    runCounterOps Compiler.msvc Width.w32 2147483647
      [CounterOp.inc, CounterOp.dec, CounterOp.inc, CounterOp.inc,
       CounterOp.dec, CounterOp.dec] = 2147483647 :=
  ⟨by decide,
   C7_inc_dec_restore Compiler.msvc Width.w32 2147483647
     [CounterOp.inc, CounterOp.dec, CounterOp.inc, CounterOp.inc,
      CounterOp.dec, CounterOp.dec] (by decide) (by decide)⟩

/-! ## The emulated semaphore -/

/-- A timed `semaphore_wait` on Android whose mutex calls succeed and whose
first timed condition wait returns a non-zero value, at `m_count <= 0`: the
count is left as it was, and the call returns `true`, the outcome of the
unlock. -/
theorem semaphore_wait_expiry (assertAborts : Bool) (s : semaphore_t) (ms r ts_sec : Int)
    (rest : List Int) (hc : s.m_count ≤ 0) (hms : 0 ≤ ms) (hr : r ≠ 0) :
    (semaphore_wait { android := true, assertAborts := assertAborts } s ms
        { lock := 0, conds := r :: rest, unlock := 0, ts_sec := ts_sec }).outcome
      = Outcome.returned true ∧
    (semaphore_wait { android := true, assertAborts := assertAborts } s ms
        { lock := 0, conds := r :: rest, unlock := 0, ts_sec := ts_sec }).sem = s := by
  have hms1 : (ms != -1) = true := by
    simp only [bne_iff_ne, ne_eq]; omega
  have hc1 : ¬ (0 < s.m_count) := by omega
  cases rest <;>
    simp [semaphore_wait, hms1, condLoop, hc1, hr, waitFinish]

/-- C8, at `semaphore_wait(sem, 0)` with `m_count = 0` on Android, the mutex
calls returning 0 and the timed condition wait returning `ETIMEDOUT`: the
count stays 0, one timed wait is issued, and the call returns `true`. -/
theorem C8_wait_expiry_returns_true :
    semaphore_wait { android := true, assertAborts := true } { m_count := 0 } 0
        { lock := 0, conds := [ETIMEDOUT], unlock := 0, ts_sec := 0 } =
      { outcome := Outcome.returned true
        sem := { m_count := 0 }
        trace := [Event.pthread_mutex_lock, Event.read_count 0,
                  Event.pthread_cond_timedwait { tv_sec := 0, tv_nsec := 0 },
                  Event.pthread_mutex_unlock] } := by
  decide

/-- An untimed `semaphore_wait` at a positive count, with the mutex calls
succeeding: it returns `true`, takes one from the count, and issues no
condition wait. -/
theorem semaphore_wait_available (p : Platform) (s : semaphore_t) (e : WaitEnv)
    (hpos : 0 < s.m_count) (hmax : s.m_count ≤ 2147483647)
    (hlock : e.lock = 0) (hunlock : e.unlock = 0) :
    semaphore_wait p s (-1) e =
      { outcome := Outcome.returned true
        sem := { m_count := s.m_count - 1 }
        trace := [Event.pthread_mutex_lock, Event.read_count s.m_count,
                  Event.read_count s.m_count, Event.write_count (s.m_count - 1),
                  Event.pthread_mutex_unlock] } := by
  have hw : wrap Width.w32 (s.m_count - 1) = s.m_count - 1 := by
    apply wrap_of_inRange
    simp only [InRange, Width.half]
    omega
  have hloop : condLoop Event.pthread_cond_wait s.m_count e.conds 0 =
      (some 0, [Event.read_count s.m_count]) := by
    cases e.conds <;> simp [condLoop, hpos]
  simp [semaphore_wait, hlock, hunlock, hloop, waitFinish, hw]

/-- Sequential untimed waits, no more of them than the count: the wait at
position `i` returns `true`, issues no condition wait, and leaves the count
`i + 1` below the starting one. -/
theorem waitAll_available (p : Platform) (envs : List WaitEnv) :
    ∀ s : semaphore_t, (envs.length : Int) ≤ s.m_count → s.m_count ≤ 2147483647 →
      (∀ e ∈ envs, e.lock = 0 ∧ e.unlock = 0) →
      (waitAll p s envs).length = envs.length ∧
      ∀ (i : Nat) (r : WaitResult), (waitAll p s envs)[i]? = some r →
        r.outcome = Outcome.returned true ∧
        (∀ ev ∈ r.trace, ev.isCondWait = false) ∧
        r.sem.m_count = s.m_count - (i + 1) := by
  induction envs with
  | nil => intro s _ _ _; simp [waitAll]
  | cons e es ih =>
    intro s hlen hmax henv
    have hlen1 : ((es.length : Int) + 1) ≤ s.m_count := by
      simpa using hlen
    have he := henv e (List.mem_cons_self e es)
    have hw := semaphore_wait_available p s e (by omega) hmax he.1 he.2
    have ih1 := ih { m_count := s.m_count - 1 } (by simp only; omega) (by simp only; omega)
      (fun x hx => henv x (List.mem_cons_of_mem e hx))
    simp only [waitAll, hw, List.length_cons]
    refine ⟨by rw [ih1.1], ?_⟩
    intro i r hir
    cases i with
    | zero =>
      simp only [List.getElem?_cons_zero, Option.some.injEq] at hir
      subst hir
      refine ⟨rfl, ?_, by simp⟩
      intro ev hev
      simp only [List.mem_cons, List.mem_singleton, List.not_mem_nil, or_false] at hev
      rcases hev with h | h | h | h | h <;> subst h <;> rfl
    | succ j =>
      simp only [List.getElem?_cons_succ] at hir
      have h := ih1.2 j r hir
      refine ⟨h.1, h.2.1, ?_⟩
      rw [h.2.2]
      push_cast
      ring

/-- C9: after a successful `semaphore_init`, for every `n` with
`1 <= n <= 2^31 - 1`, `semaphore_post(sem, n)` followed by `n` sequential
`semaphore_wait(sem, -1)` calls whose mutex calls succeed: `m_count` is `n`
after the post, every one of the `n` waits returns `true` and issues no
condition wait, the wait at position `i` leaves `m_count = n - (i + 1)`, one
less than it found, and the last one leaves 0. -/
theorem C9_post_n_then_n_waits (p : Platform) (s0 : semaphore_t) (n : Nat)
    (envs : List WaitEnv) (hn1 : 1 ≤ n) (hn2 : n ≤ 2147483647) (hlen : envs.length = n)
    (henv : ∀ e ∈ envs, e.lock = 0 ∧ e.unlock = 0) :
    (semaphore_init s0 0 0).1 = true ∧
    (semaphore_init s0 0 0).2.m_count = 0 ∧
    (semaphore_post (semaphore_init s0 0 0).2 n).sem.m_count = n ∧
    (waitAll p (semaphore_post (semaphore_init s0 0 0).2 n).sem envs).length = n ∧
    (∀ (i : Nat) (r : WaitResult),
      (waitAll p (semaphore_post (semaphore_init s0 0 0).2 n).sem envs)[i]? = some r →
        r.outcome = Outcome.returned true ∧
        (∀ ev ∈ r.trace, ev.isCondWait = false) ∧
        r.sem.m_count = (n : Int) - (i + 1)) ∧
    ((waitAll p (semaphore_post (semaphore_init s0 0 0).2 n).sem envs).getLast?.map
        (fun r => r.sem.m_count)) = some 0 := by
  have hinit : semaphore_init s0 0 0 = (true, { m_count := 0 }) := by
    simp [semaphore_init]
  have hwrap : wrap Width.w32 (0 + (n : Int)) = (n : Int) := by
    rw [wrap_of_inRange Width.w32 (0 + (n : Int))
      (by simp only [InRange, Width.half]; omega)]
    omega
  have hs : (semaphore_post (semaphore_init s0 0 0).2 n).sem = { m_count := (n : Int) } := by
    rw [hinit]
    simp only [semaphore_post, hwrap]
  rw [hs, hinit]
  have hall := waitAll_available p envs { m_count := (n : Int) }
    (by simp only [hlen]; exact le_refl _) (by simp only; omega) henv
  have hlt : n - 1 < (waitAll p { m_count := (n : Int) } envs).length := by
    rw [hall.1, hlen]; omega
  refine ⟨rfl, rfl, rfl, hall.1.trans hlen, hall.2, ?_⟩
  rw [List.getLast?_eq_getElem?, hall.1, hlen, List.getElem?_eq_getElem hlt]
  have h := (hall.2 (n - 1) _ (List.getElem?_eq_getElem hlt)).2.2
  simp only [Option.map_some', Option.some.injEq]
  rw [h]
  show (n : Int) - (((n - 1 : Nat) : Int) + 1) = 0
  omega

/-- C9 at `n = 3`, as in `post(3)` followed by three waits: the results of the
three waits, condition waits on offer to each of them and none taken. -/
theorem C9_post_n_then_n_waits_witness :
    (1 ≤ 3 ∧ 3 ≤ 2147483647) ∧
    (waitAll { android := true, assertAborts := true }
        (semaphore_post (semaphore_init { m_count := 7 } 0 0).2 3).sem
        [{ lock := 0, conds := [0], unlock := 0, ts_sec := 0 },
         { lock := 0, conds := [ETIMEDOUT], unlock := 0, ts_sec := 0 },
         { lock := 0, conds := [], unlock := 0, ts_sec := 0 }]).getLast?.map
        (fun r => r.sem.m_count) = some 0 :=
  ⟨by decide,
   (C9_post_n_then_n_waits { android := true, assertAborts := true } { m_count := 7 } 3
      [{ lock := 0, conds := [0], unlock := 0, ts_sec := 0 },
       { lock := 0, conds := [ETIMEDOUT], unlock := 0, ts_sec := 0 },
       { lock := 0, conds := [], unlock := 0, ts_sec := 0 }]
      (by decide) (by decide) (by decide) (by decide)).2.2.2.2.2⟩

/-- The wait loop ends with `result = 0` only at a positive count. -/
theorem condLoop_zero_pos (ev : Event) (count : Int) (conds : List Int) :
    ∀ result : Int, (condLoop ev count conds result).1 = some 0 → 0 < count := by
  induction conds with
  | nil =>
    intro result h
    by_cases hr : result = 0
    · by_cases hc : 0 < count
      · exact hc
      · simp [condLoop, hr, hc] at h
    · simp [condLoop, hr] at h
  | cons r rest ih =>
    intro result h
    by_cases hr : result = 0
    · by_cases hc : 0 < count
      · exact hc
      · simp only [condLoop, hr, ne_eq, not_true_eq_false, if_false, hc] at h
        exact ih r h
    · simp [condLoop, hr] at h

/-- The end of `semaphore_wait` changes the count only after a loop that ended
with `result = 0`, and then takes exactly one from a positive count. -/
theorem waitFinish_sem (s : semaphore_t) (env : WaitEnv) (pre : List Event)
    (ev : Event) (result : Int) (hs : InRange Width.w32 s.m_count) :
    (waitFinish s env pre (condLoop ev s.m_count env.conds result)).sem = s ∨
    (0 < s.m_count ∧
      (waitFinish s env pre (condLoop ev s.m_count env.conds result)).sem.m_count
        = s.m_count - 1) := by
  have hpos := condLoop_zero_pos ev s.m_count env.conds result
  cases hl : (condLoop ev s.m_count env.conds result).1 with
  | none => left; simp [waitFinish, hl]
  | some r =>
    by_cases hr : r = 0
    · right
      subst hr
      have hp := hpos hl
      refine ⟨hp, ?_⟩
      have hw : wrap Width.w32 (s.m_count - 1) = s.m_count - 1 := by
        apply wrap_of_inRange
        simp only [InRange, Width.half] at *
        omega
      simp [waitFinish, hl, hw]
    · left; simp [waitFinish, hl, hr]

/-- Whatever the pthread calls return, `semaphore_wait` either leaves the
count alone or takes exactly one from a positive count. -/
theorem semaphore_wait_sem (p : Platform) (s : semaphore_t) (ms : Int) (env : WaitEnv)
    (hs : InRange Width.w32 s.m_count) :
    (semaphore_wait p s ms env).sem = s ∨
    (0 < s.m_count ∧ (semaphore_wait p s ms env).sem.m_count = s.m_count - 1) := by
  unfold semaphore_wait
  split
  · exact waitFinish_sem s env _ _ _ hs
  · split
    · split
      · left; rfl
      · exact waitFinish_sem s env _ _ _ hs
    · exact waitFinish_sem s env _ _ _ hs

/-- C10, at the one-call sequence `semaphore_wait(sem, 0)` on Android right
after a successful `semaphore_init`, the timed wait returning `ETIMEDOUT`:
nothing has been posted, `m_count` is 0 before and after the call, and one
`semaphore_wait` has returned `true`. The same holds without the timed branch
when `pthread_cond_wait` returns an error. -/
theorem C10_wait_true_without_post :
    (runCalls { android := true, assertAborts := true } (semaphore_init { m_count := 5 } 0 0).2
        [Call.wait 0 { lock := 0, conds := [ETIMEDOUT], unlock := 0, ts_sec := 0 }]) =
      { sem := { m_count := 0 }, posted := 0, acquired := 1 } ∧
    (runCalls { android := false, assertAborts := true } (semaphore_init { m_count := 5 } 0 0).2
        [Call.wait (-1) { lock := 0, conds := [22], unlock := 0, ts_sec := 0 }]) =
      { sem := { m_count := 0 }, posted := 0, acquired := 1 } := by
  decide

/-! ## The emulated semaphore: the count stays non-negative -/

/-- C11, as stated, fails at `semaphore_post(sem, 0x80000000)` right after a
successful `semaphore_init`: `m_count += _count` wraps and leaves
`m_count = -2^31`. -/
theorem C11_post_wraps_count_negative :
    (semaphore_init { m_count := 0 } 0 0).1 = true ∧
    (semaphore_post (semaphore_init { m_count := 0 } 0 0).2 2147483648).sem.m_count
      = -2147483648 ∧
    ¬ (0 ≤ (semaphore_post (semaphore_init { m_count := 0 } 0 0).2 2147483648).sem.m_count) := by
  decide

/-- C11, amended: `m_count = 0` after a successful `semaphore_init`; from a
state with `0 <= m_count <= 2^31 - 1`, every `semaphore_wait`, for every `_ms`
and every outcome of the pthread calls, leaves `0 <= m_count <= 2^31 - 1`, and
so does every `semaphore_post(sem, _count)` with
`m_count + _count <= 2^31 - 1`. -/
theorem C11_count_nonneg_preserved (p : Platform) (s s0 : semaphore_t) (ms : Int)
    (env : WaitEnv) (_count : Nat)
    (hs : 0 ≤ s.m_count) (hmax : s.m_count ≤ 2147483647)
    (hsum : s.m_count + _count ≤ 2147483647) :
    (semaphore_init s0 0 0).1 = true ∧
    (semaphore_init s0 0 0).2.m_count = 0 ∧
    0 ≤ (semaphore_wait p s ms env).sem.m_count ∧
    (semaphore_wait p s ms env).sem.m_count ≤ 2147483647 ∧
    0 ≤ (semaphore_post s _count).sem.m_count ∧
    (semaphore_post s _count).sem.m_count ≤ 2147483647 := by
  have hr : InRange Width.w32 s.m_count := by
    simp only [InRange, Width.half]; omega
  have hw := semaphore_wait_sem p s ms env hr
  have hpost : (semaphore_post s _count).sem.m_count = s.m_count + _count := by
    show wrap Width.w32 (s.m_count + _count) = s.m_count + _count
    apply wrap_of_inRange
    simp only [InRange, Width.half]; omega
  have hinit : semaphore_init s0 0 0 = (true, { m_count := 0 }) := by
    simp [semaphore_init]
  rw [hpost, hinit]
  refine ⟨rfl, rfl, ?_, ?_, by omega, hsum⟩
  · rcases hw with h | h
    · rw [h]; exact hs
    · omega
  · rcases hw with h | h
    · rw [h]; exact hmax
    · omega

/-- C11 amended, at the count 1: a timed wait that expires, an untimed wait,
and a post of `2^31 - 2`, the largest that fits. -/
theorem C11_count_nonneg_preserved_witness :
    ((0 : Int) ≤ 1 ∧ (1 : Int) + (2147483646 : Nat) ≤ 2147483647) ∧
    0 ≤ (semaphore_wait { android := true, assertAborts := true } { m_count := 1 } 0
          { lock := 0, conds := [ETIMEDOUT], unlock := 0, ts_sec := 0 }).sem.m_count ∧
    0 ≤ (semaphore_post { m_count := 1 } 2147483646).sem.m_count :=
  ⟨by decide,
   (C11_count_nonneg_preserved { android := true, assertAborts := true } { m_count := 1 }
      { m_count := 9 } 0 { lock := 0, conds := [ETIMEDOUT], unlock := 0, ts_sec := 0 }
      2147483646 (by decide) (by decide) (by decide)).2.2.1,
   (C11_count_nonneg_preserved { android := true, assertAborts := true } { m_count := 1 }
      { m_count := 9 } 0 { lock := 0, conds := [ETIMEDOUT], unlock := 0, ts_sec := 0 }
      2147483646 (by decide) (by decide) (by decide)).2.2.2.2.1⟩

/-! ## semaphore_init on the three paths -/

/-- C12: on the emulated path `semaphore_init` returns `true` exactly when
`pthread_mutex_init` and `pthread_cond_init` both return 0, and then `m_count`
is 0 (otherwise it is left as it was); on the native POSIX path it returns
`true` exactly when `sem_init` returns 0; on the Windows path exactly when
`CreateSemaphore` returns a non-null handle. -/
theorem C12_semaphore_init_reports (s0 : semaphore_t) (mutex_init cond_init sem_init : Int)
    (handle : Nat) :
    ((semaphore_init s0 mutex_init cond_init).1 = true ↔ (mutex_init = 0 ∧ cond_init = 0)) ∧
    (semaphore_init s0 mutex_init cond_init).2.m_count
      = (if (semaphore_init s0 mutex_init cond_init).1 = true then 0 else s0.m_count) ∧
    (posix.semaphore_init sem_init = true ↔ sem_init = 0) ∧
    ((windows.semaphore_init handle).1 = true ↔ handle ≠ 0) := by
  refine ⟨?_, ?_, ?_, ?_⟩
  · by_cases h1 : mutex_init = 0 <;> by_cases h2 : cond_init = 0 <;>
      simp [semaphore_init, h1, h2]
  · by_cases h1 : mutex_init = 0 <;> by_cases h2 : cond_init = 0 <;>
      simp [semaphore_init, h1, h2]
  · simp [posix.semaphore_init]
  · simp [windows.semaphore_init]

/-! ## Traces of the emulated semaphore -/

/-- The wait loop only reads the count and issues the wait of its branch. -/
theorem condLoop_events (ev : Event) (count : Int) (conds : List Int) :
    ∀ result : Int, ∀ e ∈ (condLoop ev count conds result).2,
      e = Event.read_count count ∨ e = ev := by
  induction conds with
  | nil =>
    intro result e he
    by_cases hr : result = 0 <;> by_cases hc : 0 < count <;>
      simp [condLoop, hr, hc] at he
    · simp [he]
    · rcases he with h | h <;> simp [h]
  | cons r rest ih =>
    intro result e he
    by_cases hr : result = 0 <;> by_cases hc : 0 < count <;>
      simp [condLoop, hr, hc] at he
    · simp [he]
    · rcases he with h | h | h
      · simp [h]
      · simp [h]
      · exact ih r e h

/-- With the mutex locked and a count that is not positive, the wait loop
issues the wait of its branch. -/
theorem condLoop_waits (ev : Event) (count : Int) (conds : List Int) (hc : count ≤ 0) :
    ev ∈ (condLoop ev count conds 0).2 := by
  have hc1 : ¬ (0 < count) := by omega
  cases conds <;> simp [condLoop, hc1]

/-- The end of `semaphore_wait`: the trace is the events before the loop,
those of the loop, the accesses of the decrement, and the unlock when the call
returns. -/
theorem waitFinish_trace (s : semaphore_t) (env : WaitEnv) (pre : List Event)
    (loop : Option Int × List Event) :
    ∃ dec : List Event,
      (∀ e ∈ dec, (∃ v, e = Event.read_count v) ∨ (∃ v, e = Event.write_count v)) ∧
      (waitFinish s env pre loop).trace =
        pre ++ loop.2 ++ dec ++
          (if (waitFinish s env pre loop).outcome.isReturned = true
            then [Event.pthread_mutex_unlock] else []) := by
  cases hl : loop.1 with
  | none =>
    refine ⟨[], by simp, ?_⟩
    simp [waitFinish, hl, Outcome.isReturned]
  | some r =>
    by_cases hr : r = 0
    · refine ⟨[Event.read_count s.m_count,
        Event.write_count (wrap Width.w32 (s.m_count - 1))], ?_, ?_⟩
      · intro e he
        simp only [List.mem_cons, List.mem_singleton, List.not_mem_nil, or_false] at he
        rcases he with h | h
        · exact Or.inl ⟨_, h⟩
        · exact Or.inr ⟨_, h⟩
      · simp [waitFinish, hl, hr, Outcome.isReturned]
    · refine ⟨[], by simp, ?_⟩
      simp [waitFinish, hl, hr, Outcome.isReturned]

/-- An untimed `semaphore_wait(sem, -1)` is the lock, the loop on
`pthread_cond_wait`, and the end of the call, on every build. -/
theorem semaphore_wait_untimed (p : Platform) (s : semaphore_t) (env : WaitEnv) :
    semaphore_wait p s (-1) env =
      waitFinish s env [Event.pthread_mutex_lock]
        (condLoop Event.pthread_cond_wait s.m_count env.conds env.lock) := by
  simp [semaphore_wait]

/-! ## The untimed path -/

/-- C13, as stated, fails at `_ms = -2` on the emulated path: with the Android
branch the call waits with `pthread_cond_timedwait`, without it the
`RTM_ASSERT(-1 == _ms, ...)` fails (here it aborts the call). -/
theorem C13_negative_ms_not_untimed_on_emulated :
    semaphore_wait { android := true, assertAborts := true } { m_count := 0 } (-2)
        { lock := 0, conds := [ETIMEDOUT], unlock := 0, ts_sec := 0 } =
      { outcome := Outcome.returned true
        sem := { m_count := 0 }
        trace := [Event.pthread_mutex_lock, Event.read_count 0,
                  Event.pthread_cond_timedwait { tv_sec := 0, tv_nsec := -2000 },
                  Event.pthread_mutex_unlock] } ∧
    semaphore_wait { android := false, assertAborts := true } { m_count := 0 } (-2)
        { lock := 0, conds := [0], unlock := 0, ts_sec := 0 } =
      { outcome := Outcome.aborted
        sem := { m_count := 0 }
        trace := [Event.pthread_mutex_lock, Event.assert_failed] } := by
  decide

/-- C13, amended: for every negative `_ms` the Windows path passes `INFINITE`
to `WaitForSingleObject` and the native POSIX path calls `sem_wait`; on the
emulated path, with or without the Android branch, `semaphore_wait(sem, -1)`
never fails the assertion, never waits with `pthread_cond_timedwait`, and
waits with `pthread_cond_wait` when it holds the lock and finds no count. -/
theorem C13_untimed_path (_ms : Int) (hneg : _ms < 0) (WaitForSingleObject : Nat → Nat)
    (nacl : Bool) (now : timespec) (sem_wait : Int) (semaphore_timedwait : timespec → Int)
    (p : Platform) (s : semaphore_t) (env : WaitEnv) :
    (windows.semaphore_wait _ms WaitForSingleObject).dwMilliseconds = windows.INFINITE ∧
    (posix.semaphore_wait nacl _ms now sem_wait semaphore_timedwait).call
      = posix.SemCall.sem_wait ∧
    (∀ e ∈ (semaphore_wait p s (-1) env).trace,
      e ≠ Event.assert_failed ∧ (e.isCondWait = true → e = Event.pthread_cond_wait)) ∧
    (env.lock = 0 → s.m_count ≤ 0 →
      Event.pthread_cond_wait ∈ (semaphore_wait p s (-1) env).trace) := by
  refine ⟨?_, ?_, ?_, ?_⟩
  · simp [windows.semaphore_wait, hneg]
  · cases nacl <;> simp [posix.semaphore_wait, hneg]
  · intro e he
    rw [semaphore_wait_untimed] at he
    obtain ⟨dec, hdec, htr⟩ := waitFinish_trace s env [Event.pthread_mutex_lock]
      (condLoop Event.pthread_cond_wait s.m_count env.conds env.lock)
    rw [htr] at he
    simp only [List.mem_append, List.mem_singleton] at he
    rcases he with ((h | h) | h) | h
    · subst h; exact ⟨by simp, by simp [Event.isCondWait]⟩
    · rcases condLoop_events _ _ _ _ e h with h1 | h1 <;> subst h1 <;>
        exact ⟨by simp, by simp [Event.isCondWait]⟩
    · rcases hdec e h with ⟨v, h1⟩ | ⟨v, h1⟩ <;> subst h1 <;>
        exact ⟨by simp, by simp [Event.isCondWait]⟩
    · split at h
      · simp only [List.mem_singleton] at h
        subst h; exact ⟨by simp, by simp [Event.isCondWait]⟩
      · simp at h
  · intro hlock hcount
    rw [semaphore_wait_untimed]
    obtain ⟨dec, _, htr⟩ := waitFinish_trace s env [Event.pthread_mutex_lock]
      (condLoop Event.pthread_cond_wait s.m_count env.conds env.lock)
    rw [htr, hlock]
    have hw := condLoop_waits Event.pthread_cond_wait s.m_count env.conds hcount
    simp only [List.mem_append]
    exact Or.inl (Or.inl (Or.inr hw))

/-- C13 amended, at `_ms = -7`, and at a wait on a count of 0. -/
theorem C13_untimed_path_witness :
    ((-7 : Int) < 0) ∧
    (windows.semaphore_wait (-7) (fun _ => 258)).dwMilliseconds = windows.INFINITE ∧
    (posix.semaphore_wait false (-7) { tv_sec := 5, tv_nsec := 6 } 0 (fun _ => 0)).call
      = posix.SemCall.sem_wait :=
  ⟨by decide,
   (C13_untimed_path (-7) (by decide) (fun _ => 258) false { tv_sec := 5, tv_nsec := 6 } 0
      (fun _ => 0) { android := true, assertAborts := true } { m_count := 0 }
      { lock := 0, conds := [0], unlock := 0, ts_sec := 0 }).1,
   (C13_untimed_path (-7) (by decide) (fun _ => 258) false { tv_sec := 5, tv_nsec := 6 } 0
      (fun _ => 0) { android := true, assertAborts := true } { m_count := 0 }
      { lock := 0, conds := [0], unlock := 0, ts_sec := 0 }).2.1⟩

/-! ## The timespec of the timed waits -/

/-- C14, at `_ms = 1` and the current time (0 s, 0 ns): the native POSIX path
hands (0 s, 1000 ns) to the timed wait, a microsecond and not a millisecond
after the current time; at `_ms = 999` and (0 s, 999999999 ns) it hands
`tv_nsec = 1000998999`, which is not below 10^9; the Android branch hands the
uninitialised `tv_sec` (here 12345) and `tv_nsec = 1000`, whatever the time. -/
theorem C14_timespec_is_not_now_plus_ms :
    (posix.semaphore_wait false 1 { tv_sec := 0, tv_nsec := 0 } 0 (fun _ => 0)).call
      = posix.SemCall.semaphore_timedwait { tv_sec := 0, tv_nsec := 1000 } ∧
    timespec.nanos { tv_sec := 0, tv_nsec := 1000 }
      ≠ timespec.nanos { tv_sec := 0, tv_nsec := 0 } + 1 * 1000000 ∧
    (posix.semaphore_wait false 999 { tv_sec := 0, tv_nsec := 999999999 } 0 (fun _ => 0)).call
      = posix.SemCall.semaphore_timedwait { tv_sec := 0, tv_nsec := 1000998999 } ∧
    (semaphore_wait { android := true, assertAborts := true } { m_count := 0 } 1
        { lock := 0, conds := [ETIMEDOUT], unlock := 0, ts_sec := 12345 }).trace =
      [Event.pthread_mutex_lock, Event.read_count 0,
       Event.pthread_cond_timedwait { tv_sec := 12345, tv_nsec := 1000 },
       Event.pthread_mutex_unlock] := by
  decide

/-! ## Lock first, unlock last -/

/-- C15: `semaphore_post` issues `pthread_mutex_lock` first and
`pthread_mutex_unlock` last, once each; so does every `semaphore_wait` that
returns, whether the count was acquired, the wait timed out or failed (a call
that never wakes or that an assertion aborts issues the lock first and no
unlock). Every access to `m_count` and every condition-variable wait or signal
lies between the two. -/
theorem C15_lock_first_unlock_last (p : Platform) (s : semaphore_t) (ms : Int)
    (env : WaitEnv) (_count : Nat) :
    (∃ mid : List Event,
      (semaphore_post s _count).trace =
        Event.pthread_mutex_lock :: (mid ++ [Event.pthread_mutex_unlock]) ∧
      ∀ e ∈ mid, e.isMutexCall = false) ∧
    (∃ mid : List Event,
      (semaphore_wait p s ms env).trace =
        Event.pthread_mutex_lock ::
          (mid ++ (if (semaphore_wait p s ms env).outcome.isReturned = true
                    then [Event.pthread_mutex_unlock] else [])) ∧
      ∀ e ∈ mid, e.isMutexCall = false) := by
  constructor
  · refine ⟨List.replicate _count Event.pthread_cond_signal ++
      [Event.read_count s.m_count, Event.write_count (wrap Width.w32 (s.m_count + _count))],
      by simp [semaphore_post], ?_⟩
    intro e he
    simp only [List.mem_append, List.mem_replicate, List.mem_cons, List.mem_singleton,
      List.not_mem_nil, or_false] at he
    rcases he with ⟨_, h⟩ | h | h <;> subst h <;> rfl
  · have key : ∀ (pre : List Event) (ev : Event), ev.isMutexCall = false →
        (∀ e ∈ pre, e.isMutexCall = false) →
        ∃ mid : List Event,
          (waitFinish s env (Event.pthread_mutex_lock :: pre)
              (condLoop ev s.m_count env.conds env.lock)).trace =
            Event.pthread_mutex_lock ::
              (mid ++ (if (waitFinish s env (Event.pthread_mutex_lock :: pre)
                  (condLoop ev s.m_count env.conds env.lock)).outcome.isReturned = true
                then [Event.pthread_mutex_unlock] else [])) ∧
          ∀ e ∈ mid, e.isMutexCall = false := by
      intro pre ev hev hpre
      obtain ⟨dec, hdec, htr⟩ := waitFinish_trace s env (Event.pthread_mutex_lock :: pre)
        (condLoop ev s.m_count env.conds env.lock)
      refine ⟨pre ++ (condLoop ev s.m_count env.conds env.lock).2 ++ dec, ?_, ?_⟩
      · rw [htr]; simp
      · intro e he
        simp only [List.mem_append] at he
        rcases he with (h | h) | h
        · exact hpre e h
        · rcases condLoop_events _ _ _ _ e h with h1 | h1
          · subst h1; rfl
          · subst h1; exact hev
        · rcases hdec e h with ⟨v, h1⟩ | ⟨v, h1⟩ <;> subst h1 <;> rfl
    unfold semaphore_wait
    split
    · exact key [] _ rfl (by simp)
    · split
      · split
        · refine ⟨[Event.assert_failed], by simp [Outcome.isReturned], ?_⟩
          intro e he
          simp only [List.mem_singleton] at he
          subst he; rfl
        · refine key [Event.assert_failed] _ rfl ?_
          intro e he
          simp only [List.mem_singleton] at he
          subst he; rfl
      · exact key [] _ rfl (by simp)

/-! ## strings.h: strCmp -/

/-- One round of the loop of `strCmp` that goes on to the next characters
carries the description of the result from the tails to the whole strings. -/
theorem strCmp_spec_cons (fn : Int → Int) (a b : Int) (l r : List Int) (m : Nat) (v : Int)
    (hab : fn a = fn b)
    (hzero : v = 0 ↔ ∀ i : Nat, i < m → i ≤ min l.length r.length →
      fn ((cstr l).getD i 0) = fn ((cstr r).getD i 0))
    (hdiff : v ≠ 0 → ∃ k : Nat, k < m ∧ k ≤ min l.length r.length ∧
      (∀ j : Nat, j < k → fn ((cstr l).getD j 0) = fn ((cstr r).getD j 0)) ∧
      fn ((cstr l).getD k 0) ≠ fn ((cstr r).getD k 0) ∧
      v = fn ((cstr l).getD k 0) - fn ((cstr r).getD k 0)) :
    (v = 0 ↔ ∀ i : Nat, i < m + 1 → i ≤ min (a :: l).length (b :: r).length →
      fn ((cstr (a :: l)).getD i 0) = fn ((cstr (b :: r)).getD i 0)) ∧
    (v ≠ 0 → ∃ k : Nat, k < m + 1 ∧ k ≤ min (a :: l).length (b :: r).length ∧
      (∀ j : Nat, j < k → fn ((cstr (a :: l)).getD j 0) = fn ((cstr (b :: r)).getD j 0)) ∧
      fn ((cstr (a :: l)).getD k 0) ≠ fn ((cstr (b :: r)).getD k 0) ∧
      v = fn ((cstr (a :: l)).getD k 0) - fn ((cstr (b :: r)).getD k 0)) := by
  have hcl : cstr (a :: l) = a :: cstr l := rfl
  have hcr : cstr (b :: r) = b :: cstr r := rfl
  rw [hcl, hcr]
  constructor
  · constructor
    · intro hv i hi hle
      cases i with
      | zero => simpa using hab
      | succ i =>
        simp only [List.getD_cons_succ]
        refine hzero.mp hv i (by omega) ?_
        simp only [List.length_cons] at hle
        omega
    · intro h
      refine hzero.mpr ?_
      intro i hi hle
      have := h (i + 1) (by omega) (by simp only [List.length_cons]; omega)
      simpa only [List.getD_cons_succ] using this
  · intro hv
    obtain ⟨k, hk, hle, hbefore, hne, hval⟩ := hdiff hv
    refine ⟨k + 1, by omega, by simp only [List.length_cons]; omega, ?_, ?_, ?_⟩
    · intro j hj
      cases j with
      | zero => simpa using hab
      | succ j =>
        simp only [List.getD_cons_succ]
        exact hbefore j (by omega)
    · simpa only [List.getD_cons_succ] using hne
    · simpa only [List.getD_cons_succ] using hval

/-- The result of `strCmp<fn>` on two NUL-terminated strings, for every `fn`:
it reads inside the arrays, returns 0 exactly when the two sides agree after
`fn` at every index below `_max` up to the first NUL of either, and otherwise
returns the difference at the first index where they differ. -/
theorem strCmp_spec (fn : Int → Int) (l : List Int) :
    ∀ (r : List Int) (_max : Nat), (0 : Int) ∉ l → (0 : Int) ∉ r →
      ∃ v : Int, strCmp fn (cstr l) (cstr r) _max = Run.ok v ∧
        (v = 0 ↔ ∀ i : Nat, i < _max → i ≤ min l.length r.length →
          fn ((cstr l).getD i 0) = fn ((cstr r).getD i 0)) ∧
        (v ≠ 0 → ∃ k : Nat, k < _max ∧ k ≤ min l.length r.length ∧
          (∀ j : Nat, j < k → fn ((cstr l).getD j 0) = fn ((cstr r).getD j 0)) ∧
          fn ((cstr l).getD k 0) ≠ fn ((cstr r).getD k 0) ∧
          v = fn ((cstr l).getD k 0) - fn ((cstr r).getD k 0)) := by
  induction l with
  | nil =>
    intro r _max _ hr
    cases _max with
    | zero =>
      refine ⟨0, by simp [cstr, strCmp], by simp, by simp⟩
    | succ m =>
      cases r with
      | nil =>
        refine ⟨0, by simp [cstr, strCmp], by simp [cstr], by simp⟩
      | cons b r =>
        have hb : b ≠ 0 := fun h => hr (by simp [h])
        by_cases hf : fn 0 = fn b
        · refine ⟨fn 0 - fn b, by simp [cstr, strCmp, hf], ?_, ?_⟩
          · simp only [hf, sub_self, true_iff]
            intro i _ hle
            have hi : i = 0 := by simpa using hle
            subst hi
            simpa [cstr] using hf
          · intro h; simp [hf] at h
        · refine ⟨fn 0 - fn b, by simp [cstr, strCmp, hf], ?_, ?_⟩
          · constructor
            · intro h; exact absurd (sub_eq_zero.mp h) hf
            · intro h
              have := h 0 (by omega) (by simp)
              exact absurd (by simpa [cstr] using this) hf
          · intro _
            exact ⟨0, by omega, by simp, by simp, by simpa [cstr] using hf, by simp [cstr]⟩
  | cons a l ih =>
    intro r _max hl hr
    have ha : a ≠ 0 := fun h => hl (by simp [h])
    have hl1 : (0 : Int) ∉ l := fun h => hl (List.mem_cons_of_mem a h)
    cases _max with
    | zero =>
      refine ⟨0, by simp [cstr, strCmp], by simp, by simp⟩
    | succ m =>
      cases r with
      | nil =>
        by_cases hf : fn a = fn 0
        · refine ⟨fn a - fn 0, by simp [cstr, strCmp, hf], ?_, ?_⟩
          · simp only [hf, sub_self, true_iff]
            intro i _ hle
            have hi : i = 0 := by simpa using hle
            subst hi
            simpa [cstr] using hf
          · intro h; simp [hf] at h
        · refine ⟨fn a - fn 0, by simp [cstr, strCmp, hf], ?_, ?_⟩
          · constructor
            · intro h; exact absurd (sub_eq_zero.mp h) hf
            · intro h
              have := h 0 (by omega) (by simp)
              exact absurd (by simpa [cstr] using this) hf
          · intro _
            exact ⟨0, by omega, by simp, by simp, by simpa [cstr] using hf, by simp [cstr]⟩
      | cons b r =>
        have hb : b ≠ 0 := fun h => hr (by simp [h])
        have hr1 : (0 : Int) ∉ r := fun h => hr (List.mem_cons_of_mem b h)
        by_cases hf : fn a = fn b
        · obtain ⟨v, hv, hzero, hdiff⟩ := ih r m hl1 hr1
          refine ⟨v, ?_, strCmp_spec_cons fn a b l r m v hf hzero hdiff⟩
          have hc : strCmp fn (cstr (a :: l)) (cstr (b :: r)) (m + 1)
              = strCmp fn (cstr l) (cstr r) m := by
            simp [cstr, strCmp, hf, ha, hb]
          rw [hc, hv]
        · refine ⟨fn a - fn b, by simp [cstr, strCmp, hf], ?_, ?_⟩
          · constructor
            · intro h; exact absurd (sub_eq_zero.mp h) hf
            · intro h
              have := h 0 (by omega) (by simp)
              exact absurd (by simpa [cstr] using this) hf
          · intro _
            exact ⟨0, by omega, by simp, by simp, by simpa [cstr] using hf, by simp [cstr]⟩

/-- C18: for NUL-terminated strings `l` and `r` and every `_max`, `strncmp`
(`fn` the identity) and `strincmp` (`fn = toLower`) return a value `v` with:
`v = 0` if and only if `fn(l[i]) = fn(r[i])` at every index `i < _max` up to
and including the first index where `l` or `r` holds NUL; and when `v` is not
0 it is the difference `fn(l[k]) - fn(r[k])` at the first index `k` where the
two sides differ. With `_max = 0` no index qualifies and `v = 0`. -/
theorem C18_strCmp_result (l r : List Int) (_max : Nat)
    (hl : (0 : Int) ∉ l) (hr : (0 : Int) ∉ r) :
    (∃ v : Int, strncmp (cstr l) (cstr r) _max = Run.ok v ∧
      (v = 0 ↔ ∀ i : Nat, i < _max → i ≤ min l.length r.length →
        toNoop ((cstr l).getD i 0) = toNoop ((cstr r).getD i 0)) ∧
      (v ≠ 0 → ∃ k : Nat, k < _max ∧ k ≤ min l.length r.length ∧
        (∀ j : Nat, j < k → toNoop ((cstr l).getD j 0) = toNoop ((cstr r).getD j 0)) ∧
        toNoop ((cstr l).getD k 0) ≠ toNoop ((cstr r).getD k 0) ∧
        v = toNoop ((cstr l).getD k 0) - toNoop ((cstr r).getD k 0))) ∧
    (∃ v : Int, strincmp (cstr l) (cstr r) _max = Run.ok v ∧
      (v = 0 ↔ ∀ i : Nat, i < _max → i ≤ min l.length r.length →
        toLower ((cstr l).getD i 0) = toLower ((cstr r).getD i 0)) ∧
      (v ≠ 0 → ∃ k : Nat, k < _max ∧ k ≤ min l.length r.length ∧
        (∀ j : Nat, j < k → toLower ((cstr l).getD j 0) = toLower ((cstr r).getD j 0)) ∧
        toLower ((cstr l).getD k 0) ≠ toLower ((cstr r).getD k 0) ∧
        v = toLower ((cstr l).getD k 0) - toLower ((cstr r).getD k 0))) ∧
    strncmp (cstr l) (cstr r) 0 = Run.ok 0 ∧
    strincmp (cstr l) (cstr r) 0 = Run.ok 0 := by
  refine ⟨strCmp_spec toNoop l r _max hl hr, strCmp_spec toLower l r _max hl hr, ?_, ?_⟩
  · cases l <;> simp [strncmp, cstr, strCmp]
  · cases l <;> simp [strincmp, cstr, strCmp]

/-- C18 on "Ab" against "aB" with `_max = 5`: `strncmp` gives 65 - 97 and
`strincmp` gives 0. -/
theorem C18_strCmp_result_witness :
    ((0 : Int) ∉ [65, 98] ∧ (0 : Int) ∉ [97, 66]) ∧
    strncmp (cstr [65, 98]) (cstr [97, 66]) 5 = Run.ok (-32) ∧
    strincmp (cstr [65, 98]) (cstr [97, 66]) 5 = Run.ok 0 ∧
    strncmp (cstr [65, 98]) (cstr [97, 66]) 0 = Run.ok 0 :=
  ⟨by decide, by decide, by decide,
   (C18_strCmp_result [65, 98] [97, 66] 5 (by decide) (by decide)).2.2.1⟩

/-! ## strings.h: strnlen -/

/-- The loop of `strnlen` on a NUL-terminated string stops at the NUL or at
the bound, whichever comes first, and reads inside the array. -/
theorem strnlenLoop_cstr (s : List Int) :
    ∀ (_max n : Nat), (0 : Int) ∉ s →
      strnlenLoop (cstr s) _max n = Run.ok (n + min s.length _max) := by
  induction s with
  | nil => intro _max n _; simp [cstr, strnlenLoop]
  | cons c s ih =>
    intro _max n hs
    have hc : c ≠ 0 := fun h => hs (by simp [h])
    have hs1 : (0 : Int) ∉ s := fun h => hs (List.mem_cons_of_mem c h)
    cases _max with
    | zero => simp [cstr, strnlenLoop]
    | succ m =>
      have hstep : strnlenLoop (cstr (c :: s)) (m + 1) n = strnlenLoop (cstr s) m (n + 1) := by
        simp [cstr, strnlenLoop, hc]
      rw [hstep, ih m (n + 1) hs1]
      congr 1
      simp only [List.length_cons]
      omega

/-- `strnlen` of a NUL-terminated string: the smaller of its length and the
bound, as an `int32_t`. -/
theorem strnlen_cstr (s : List Int) (_max : Nat) (hs : (0 : Int) ∉ s) :
    strnlen (some (cstr s)) _max = Run.ok (wrap Width.w32 ((min s.length _max : Nat) : Int)) := by
  simp [strnlen, strnlenLoop_cstr s _max 0 hs]

/-- A natural number below 2^31 is its own `int32_t`. -/
theorem wrap_natCast (n : Nat) (h : n < 2147483648) : wrap Width.w32 (n : Int) = (n : Int) := by
  apply wrap_of_inRange
  simp only [InRange, Width.half]
  omega

/-! ## strings.h: strStr -/

/-- The comparison loop of `strStr` on a non-empty NUL-terminated pattern and
at least as many characters of the string: it reads inside the arrays and
tells whether the pattern stands there, both sides compared after `fn`. -/
theorem strStrCompare_spec (fn : Int → Int) (f : List Int) :
    ∀ (t rest : List Int), f ≠ [] → (0 : Int) ∉ f → f.length ≤ t.length →
      ∃ b : Bool, strStrCompare fn (t ++ rest) (cstr f) = Run.ok b ∧
        (b = true ↔ (t.take f.length).map fn = f.map fn) := by
  induction f with
  | nil => intro t rest h; exact absurd rfl h
  | cons b f ih =>
    intro t rest _ hf hlen
    cases t with
    | nil => simp at hlen
    | cons a t =>
      have hlen1 : f.length ≤ t.length := by simpa using hlen
      by_cases hab : fn a = fn b
      · cases f with
        | nil =>
          exact ⟨true, by simp [cstr, strStrCompare, hab], by simp [hab]⟩
        | cons b2 f2 =>
          have hb2 : b2 ≠ 0 := fun h => hf (by simp [h])
          have hb2' : ¬ (0 = b2) := fun h => hb2 h.symm
          have hf1 : (0 : Int) ∉ b2 :: f2 := fun h => hf (List.mem_cons_of_mem b h)
          obtain ⟨r, hr, hiff⟩ := ih t rest (by simp) hf1 hlen1
          refine ⟨r, ?_, ?_⟩
          · have hstep : strStrCompare fn (a :: t ++ rest) (cstr (b :: b2 :: f2))
                = strStrCompare fn (t ++ rest) (cstr (b2 :: f2)) := by
              simp [cstr, strStrCompare, hab, hb2']
            rw [hstep, hr]
          · rw [hiff]
            simp [hab]
      · exact ⟨false, by simp [cstr, strStrCompare, hab], by simp [hab]⟩

/-- No match: `NULL` is the right result. -/
theorem firstMatch_none (M : Nat → Prop) (idx : Nat) (h : ∀ k : Nat, ¬ M k) :
    (∀ i : Nat, (none : Option Nat) = some i ↔
      ∃ k : Nat, i = idx + k ∧ M k ∧ ∀ j : Nat, j < k → ¬ M j) ∧
    ((none : Option Nat) = none ↔ ∀ k : Nat, ¬ M k) := by
  refine ⟨fun i => ⟨fun hi => by simp at hi, ?_⟩, by simp [h]⟩
  rintro ⟨k, _, hk, _⟩
  exact absurd hk (h k)

/-- A match at the current place: the pointer to it is the right result. -/
theorem firstMatch_here (M : Nat → Prop) (idx : Nat) (h : M 0) :
    (∀ i : Nat, some idx = some i ↔
      ∃ k : Nat, i = idx + k ∧ M k ∧ ∀ j : Nat, j < k → ¬ M j) ∧
    (some idx = none ↔ ∀ k : Nat, ¬ M k) := by
  refine ⟨fun i => ⟨?_, ?_⟩, ?_⟩
  · intro hi
    have hi1 : idx = i := by simpa using hi
    exact ⟨0, by omega, h, fun j hj => by omega⟩
  · rintro ⟨k, hik, _, hleast⟩
    have hk : k = 0 := by
      by_contra hk0
      exact hleast 0 (by omega) h
    subst hk
    simp [hik]
  · constructor
    · intro hi; simp at hi
    · intro hall; exact absurd h (hall 0)

/-- No match at the current place: the right result for the rest of the
string, one place further, is the right result here. -/
theorem firstMatch_shift (M M1 : Nat → Prop) (res : Option Nat) (idx : Nat)
    (h0 : ¬ M 0) (hshift : ∀ k : Nat, M (k + 1) ↔ M1 k)
    (hsome : ∀ i : Nat, res = some i ↔
      ∃ k : Nat, i = idx + 1 + k ∧ M1 k ∧ ∀ j : Nat, j < k → ¬ M1 j)
    (hnone : res = none ↔ ∀ k : Nat, ¬ M1 k) :
    (∀ i : Nat, res = some i ↔
      ∃ k : Nat, i = idx + k ∧ M k ∧ ∀ j : Nat, j < k → ¬ M j) ∧
    (res = none ↔ ∀ k : Nat, ¬ M k) := by
  refine ⟨fun i => ⟨?_, ?_⟩, ⟨?_, ?_⟩⟩
  · intro hi
    obtain ⟨k, hik, hk, hleast⟩ := (hsome i).mp hi
    refine ⟨k + 1, by omega, (hshift k).mpr hk, ?_⟩
    intro j hj
    cases j with
    | zero => exact h0
    | succ j => exact fun hm => hleast j (by omega) ((hshift j).mp hm)
  · rintro ⟨k, hik, hk, hleast⟩
    cases k with
    | zero => exact absurd hk h0
    | succ k =>
      refine (hsome i).mpr ⟨k, by omega, (hshift k).mp hk, ?_⟩
      intro j hj hm
      exact hleast (j + 1) (by omega) ((hshift j).mpr hm)
  · intro hn k
    cases k with
    | zero => exact h0
    | succ k => exact fun hm => (hnone.mp hn) k ((hshift k).mp hm)
  · intro hall
    exact hnone.mpr (fun k hm => hall (k + 1) ((hshift k).mpr hm))

/-- Moving one character on in the string and taking one from the bound moves
every match one index down. -/
theorem matchAt_cons_succ (fn : Int → Int) (c : Int) (t f : List Int) (n k : Nat)
    (hn : 1 ≤ n) :
    matchAt fn (c :: t) f n (k + 1) ↔ matchAt fn t f (n - 1) k := by
  simp only [matchAt, List.length_cons, List.drop_succ_cons]
  constructor
  · rintro ⟨h1, h2⟩
    exact ⟨by omega, h2⟩
  · rintro ⟨h1, h2⟩
    exact ⟨by omega, h2⟩

/-- One round of the `for` loop of `strStr`, written out. -/
theorem strStrLoop_cons (fn : Int → Int) (f0 : Int) (fs : List Int) (findLen : Int)
    (c : Int) (rest : List Int) (idx : Nat) (stringLen : Int) (forCheck : Bool) :
    strStrLoop fn (f0 :: fs) findLen (c :: rest) idx stringLen forCheck =
      if forCheck && !(stringLen ≥ findLen) then Run.ok none
      else if fn c != fn f0 then
        if findLen > wrap Width.w32 (stringLen - 1) then Run.ok none
        else strStrLoop fn (f0 :: fs) findLen rest (idx + 1)
          (wrap Width.w32 (stringLen - 1)) false
      else
        match strStrCompare fn (c :: rest) (f0 :: fs) with
        | Run.ok true => Run.ok (some idx)
        | Run.ok false =>
          strStrLoop fn (f0 :: fs) findLen rest (idx + 1)
            (wrap Width.w32 (stringLen - 1)) true
        | Run.out_of_bounds => Run.out_of_bounds
        | Run.assert_failed => Run.assert_failed := by
  rw [strStrLoop]

/-- The `for` loop of `strStr` on a NUL-terminated string and a non-empty
NUL-terminated pattern, with `n` characters of the string left inside the
bound: it reads inside the arrays and returns the pointer to the first match
among those `n` characters, or `NULL` when there is none. -/
theorem strStrLoop_spec (fn : Int → Int) (f : List Int) (hne : f ≠ [])
    (hf : (0 : Int) ∉ f) (t : List Int) :
    ∀ (idx n : Nat) (forCheck : Bool), n ≤ t.length → n < 2147483648 →
      (forCheck = false → f.length ≤ n) →
      ∃ res : Option Nat,
        strStrLoop fn (cstr f) (f.length : Int) (cstr t) idx (n : Int) forCheck = Run.ok res ∧
        (∀ i : Nat, res = some i ↔
          ∃ k : Nat, i = idx + k ∧ matchAt fn t f n k ∧
            ∀ j : Nat, j < k → ¬ matchAt fn t f n j) ∧
        (res = none ↔ ∀ k : Nat, ¬ matchAt fn t f n k) := by
  obtain ⟨f0, fs, hfeq⟩ : ∃ f0 fs, f = f0 :: fs := by
    cases f with
    | nil => exact absurd rfl hne
    | cons a b => exact ⟨a, b, rfl⟩
  have hcf : cstr f = f0 :: (fs ++ [0]) := by rw [hfeq]; rfl
  have hflen1 : 1 ≤ f.length := by rw [hfeq]; simp
  -- below the pattern length there is no match
  have hshort : ∀ (u : List Int) (m : Nat), m < f.length → ∀ k : Nat, ¬ matchAt fn u f m k := by
    intro u m hm k hk
    have := hk.1
    omega
  induction t with
  | nil =>
    intro idx n forCheck hn _ hfc
    have hn0 : n = 0 := by simpa using hn
    subst hn0
    cases forCheck with
    | false => have := hfc rfl; omega
    | true =>
      refine ⟨none, ?_, firstMatch_none _ idx (hshort [] 0 (by omega))⟩
      have hc : cstr ([] : List Int) = [0] := rfl
      rw [hc, hcf, strStrLoop_cons]
      have : ¬ ((0 : Int) ≥ (f.length : Int)) := by omega
      simp [this]
  | cons c t ih =>
    intro idx n forCheck hn hn31 hfc
    have hc : cstr (c :: t) = c :: cstr t := rfl
    rw [hc, hcf, strStrLoop_cons]
    by_cases hlen : f.length ≤ n
    · have hcond : (forCheck && !decide ((n : Int) ≥ (f.length : Int))) = false := by
        have : (n : Int) ≥ (f.length : Int) := by omega
        simp [this]
      have hwrap : wrap Width.w32 ((n : Int) - 1) = ((n - 1 : Nat) : Int) := by
        have h1 : ((n : Int) - 1) = ((n - 1 : Nat) : Int) := by omega
        rw [h1]
        exact wrap_natCast (n - 1) (by omega)
      have hshift : ∀ k : Nat, matchAt fn (c :: t) f n (k + 1) ↔ matchAt fn t f (n - 1) k :=
        fun k => matchAt_cons_succ fn c t f n k (by omega)
      have hn1 : n - 1 ≤ t.length := by
        simp only [List.length_cons] at hn; omega
      simp only [hcond, Bool.false_eq_true, if_false, hwrap]
      by_cases hhead : fn c = fn f0
      · -- the first characters agree: compare
        have hne1 : (fn c != fn f0) = false := by simp [hhead]
        simp only [hne1, Bool.false_eq_true, if_false]
        obtain ⟨b, hb, hbiff⟩ := strStrCompare_spec fn f (c :: t) [0] hne hf (by omega)
        have hb1 : strStrCompare fn (c :: cstr t) (f0 :: (fs ++ [0])) = Run.ok b := by
          rw [← hcf]; exact hb
        rw [hb1]
        cases b with
        | true =>
          refine ⟨some idx, rfl, firstMatch_here _ idx ?_⟩
          exact ⟨by simp only [Nat.zero_add]; omega, by simpa using hbiff.mp rfl⟩
        | false =>
          have h0 : ¬ matchAt fn (c :: t) f n 0 := by
            intro hm
            have := hbiff.mpr (by simpa using hm.2)
            simp at this
          obtain ⟨res, hres, hsome, hnone⟩ := ih (idx + 1) (n - 1) true hn1 (by omega)
            (fun h => by simp at h)
          rw [hcf] at hres
          exact ⟨res, hres, firstMatch_shift _ _ res idx h0 hshift hsome hnone⟩
      · -- the first characters differ: one round of the inner `while`
        have hne1 : (fn c != fn f0) = true := by simp [hhead]
        have h0 : ¬ matchAt fn (c :: t) f n 0 := by
          intro hm
          have h2 := hm.2
          rw [hfeq] at h2
          simp at h2
          exact hhead h2.1
        simp only [hne1, if_true]
        by_cases hlen1 : f.length ≤ n - 1
        · have hgt : ¬ ((f.length : Int) > ((n - 1 : Nat) : Int)) := by omega
          simp only [hgt, if_false]
          obtain ⟨res, hres, hsome, hnone⟩ := ih (idx + 1) (n - 1) false hn1 (by omega)
            (fun _ => hlen1)
          rw [hcf] at hres
          exact ⟨res, hres, firstMatch_shift _ _ res idx h0 hshift hsome hnone⟩
        · have hgt : (f.length : Int) > ((n - 1 : Nat) : Int) := by omega
          simp only [hgt, if_true]
          refine ⟨none, rfl, firstMatch_none _ idx ?_⟩
          intro k
          cases k with
          | zero => exact h0
          | succ k =>
            rw [hshift k]
            exact hshort t (n - 1) (by omega) k
    · cases forCheck with
      | false => exact absurd (hfc rfl) hlen
      | true =>
        have : ¬ ((n : Int) ≥ (f.length : Int)) := by omega
        refine ⟨none, by simp [this], firstMatch_none _ idx (hshort (c :: t) n (by omega))⟩

/-- `strStr<fn>` with `_findMax = INT32_MAX` on a NUL-terminated string and a
non-empty NUL-terminated pattern, both shorter than 2^31: it reads inside the
arrays and returns the pointer to the first match within the bound, or `NULL`
when there is none. -/
theorem strStr_spec (fn : Int → Int) (s f : List Int) (_max : Nat)
    (hs : (0 : Int) ∉ s) (hf : (0 : Int) ∉ f) (hne : f ≠ [])
    (hslen : s.length < 2147483648) (hflen : f.length < 2147483648) :
    ∃ res : Option Nat, strStr fn (cstr s) _max (cstr f) INT32_MAX = Run.ok res ∧
      (∀ i : Nat, res = some i ↔
        (matchAt fn s f _max i ∧ ∀ j : Nat, j < i → ¬ matchAt fn s f _max j)) ∧
      (res = none ↔ ∀ i : Nat, ¬ matchAt fn s f _max i) := by
  have hbound : ∀ k : Nat, matchAt fn s f (min s.length _max) k ↔ matchAt fn s f _max k := by
    intro k
    simp only [matchAt]
    constructor
    · rintro ⟨h1, h2⟩; exact ⟨by omega, h2⟩
    · rintro ⟨h1, h2⟩; exact ⟨by omega, h2⟩
  have hsl : strnlen (some (cstr s)) _max = Run.ok ((min s.length _max : Nat) : Int) := by
    rw [strnlen_cstr s _max hs, wrap_natCast _ (by omega)]
  have hfl : strnlen (some (cstr f)) INT32_MAX = Run.ok (f.length : Int) := by
    rw [strnlen_cstr f INT32_MAX hf, wrap_natCast _ (by omega)]
    have : min f.length INT32_MAX = f.length := by
      simp only [INT32_MAX]; omega
    rw [this]
  obtain ⟨res, hres, hsome, hnone⟩ := strStrLoop_spec fn f hne hf s 0 (min s.length _max) true
    (by omega) (by omega) (fun h => by simp at h)
  refine ⟨res, ?_, ?_, ?_⟩
  · simp only [strStr, hsl, hfl]
    exact hres
  · intro i
    rw [hsome i]
    constructor
    · rintro ⟨k, hik, hk, hleast⟩
      have : i = k := by omega
      subst this
      exact ⟨(hbound i).mp hk, fun j hj hm => hleast j hj ((hbound j).mpr hm)⟩
    · rintro ⟨hk, hleast⟩
      exact ⟨i, by omega, (hbound i).mpr hk, fun j hj hm => hleast j hj ((hbound j).mp hm)⟩
  · rw [hnone]
    constructor
    · intro h i hm; exact h i ((hbound i).mpr hm)
    · intro h i hm; exact h i ((hbound i).mp hm)

/-- C16: for every NUL-terminated string `s`, every non-empty NUL-terminated
pattern `f`, both shorter than 2^31 characters, and every bound `_max`,
`strnstr` returns `s + i` exactly for the least index `i` with
`i + len(f) <= min(len(s), _max)` at which `f` stands in `s`, and `NULL`
exactly when there is no such index; `stristr` does the same with both sides
compared after `toLower`. -/
theorem C16_strnstr_first_match (s f : List Int) (_max : Nat)
    (hs : (0 : Int) ∉ s) (hf : (0 : Int) ∉ f) (hne : f ≠ [])
    (hslen : s.length < 2147483648) (hflen : f.length < 2147483648) :
    (∃ res : Option Nat, strnstr (cstr s) (cstr f) _max = Run.ok res ∧
      (∀ i : Nat, res = some i ↔
        (matchAt toNoop s f _max i ∧ ∀ j : Nat, j < i → ¬ matchAt toNoop s f _max j)) ∧
      (res = none ↔ ∀ i : Nat, ¬ matchAt toNoop s f _max i)) ∧
    (∃ res : Option Nat, stristr (cstr s) (cstr f) _max = Run.ok res ∧
      (∀ i : Nat, res = some i ↔
        (matchAt toLower s f _max i ∧ ∀ j : Nat, j < i → ¬ matchAt toLower s f _max j)) ∧
      (res = none ↔ ∀ i : Nat, ¬ matchAt toLower s f _max i)) :=
  ⟨strStr_spec toNoop s f _max hs hf hne hslen hflen,
   strStr_spec toLower s f _max hs hf hne hslen hflen⟩

/-- C16 on the string "abcbcd" and the pattern "bcd" with the default bound:
the pointer returned is `s + 3`, and the pattern stands at index 3. -/
theorem C16_strnstr_first_match_witness :
    ((0 : Int) ∉ [97, 98, 99, 98, 99, 100] ∧ (0 : Int) ∉ [98, 99, 100]) ∧
    strnstr (cstr [97, 98, 99, 98, 99, 100]) (cstr [98, 99, 100]) 4294967295
      = Run.ok (some 3) ∧
    matchAt toNoop [97, 98, 99, 98, 99, 100] [98, 99, 100] 4294967295 3 := by
  refine ⟨by decide, by decide, ?_⟩
  obtain ⟨⟨res, hres, hsome, _⟩, _⟩ :=
    C16_strnstr_first_match [97, 98, 99, 98, 99, 100] [98, 99, 100] 4294967295
      (by decide) (by decide) (by decide) (by decide) (by decide)
  have heval : strnstr (cstr [97, 98, 99, 98, 99, 100]) (cstr [98, 99, 100]) 4294967295
      = Run.ok (some 3) := by decide
  rw [heval] at hres
  have hr : res = some 3 := by
    injection hres with h
    exact h.symm
  exact ((hsome 3).mp hr).1

/-- C17, at the empty pattern: on the string "" and on the string "a", with
the default bound, `strnstr` and `stristr` read the pattern one character
past its terminating NUL (the test `'\0' == *search` after `search++`). -/
theorem C17_empty_pattern_reads_past_nul :
    strnstr (cstr []) (cstr []) 4294967295 = Run.out_of_bounds ∧
    stristr (cstr []) (cstr []) 4294967295 = Run.out_of_bounds ∧
    strnstr (cstr [97]) (cstr []) 4294967295 = Run.out_of_bounds ∧
    strStrCompare toNoop (cstr []) (cstr []) = Run.out_of_bounds := by
  decide

/-! ## strings.h: strlncpy -/

/-- `strlncpy` on a NUL-terminated source whose bounded length fits an
`int32_t`, into an array of at least `_dstSize > 0` characters: the value it
returns and the array it leaves. -/
theorem strlncpy_cstr (assertAborts : Bool) (size_t : Width) (dst s : List Int)
    (_dstSize _num : Nat) (hs : (0 : Int) ∉ s) (hpos : 0 < _dstSize)
    (hsize : _dstSize ≤ 2147483647) (hdst : _dstSize ≤ dst.length)
    (hlen : min s.length _num < 2147483648) :
    strlncpy assertAborts size_t dst (_dstSize : Int) (cstr s) _num =
      Run.ok (((min (min s.length _num) (_dstSize - 1) : Nat) : Int),
        s.take (min (min s.length _num) (_dstSize - 1)) ++
          0 :: dst.drop (min (min s.length _num) (_dstSize - 1) + 1)) := by
  have hassert : (assertAborts && !decide ((0 : Int) < (_dstSize : Int))) = false := by
    have : (0 : Int) < (_dstSize : Int) := by omega
    simp [this]
  have hsl : strnlen (some (cstr s)) _num = Run.ok ((min s.length _num : Nat) : Int) := by
    rw [strnlen_cstr s _num hs, wrap_natCast _ hlen]
  have hmax : wrap Width.w32 ((_dstSize : Int) - 1) = ((_dstSize - 1 : Nat) : Int) := by
    have h1 : ((_dstSize : Int) - 1) = ((_dstSize - 1 : Nat) : Int) := by omega
    rw [h1]
    exact wrap_natCast _ (by omega)
  have hnum : (if ((min s.length _num : Nat) : Int) < ((_dstSize - 1 : Nat) : Int)
      then ((min s.length _num : Nat) : Int) else ((_dstSize - 1 : Nat) : Int))
      = ((min (min s.length _num) (_dstSize - 1) : Nat) : Int) := by
    split <;> omega
  generalize hk : min (min s.length _num) (_dstSize - 1) = k at hnum ⊢
  have hks : k ≤ s.length := by omega
  have hkd : k < dst.length := by omega
  have hmod : ((k : Int) % size_t.modulus).toNat = k := by
    have : (k : Int) % size_t.modulus = (k : Int) := by
      apply Int.emod_eq_of_lt (by omega)
      cases size_t <;> simp only [Width.modulus] <;> omega
    rw [this]
    simp
  have htake : List.take k (cstr s) = List.take k s := by
    simp only [cstr]
    rw [List.take_append_of_le_length hks]
  have hcopy : memcpy dst (cstr s) k = Run.ok (s.take k ++ dst.drop k) := by
    have h1 : k ≤ (cstr s).length := by simp [cstr]; omega
    have h2 : k ≤ dst.length := by omega
    simp only [memcpy, h1, h2, and_self, if_true, htake]
  have hclen : (s.take k ++ dst.drop k).length = dst.length := by
    simp only [List.length_append, List.length_take, List.length_drop]
    omega
  have hset : (s.take k ++ dst.drop k).set k 0 = s.take k ++ 0 :: dst.drop (k + 1) := by
    have hl : (s.take k).length = k := by
      simp only [List.length_take]; omega
    have hd : dst.drop k = dst.get ⟨k, hkd⟩ :: dst.drop (k + 1) := by
      simp
    rw [List.set_append]
    simp only [hl, lt_self_iff_false, if_false, Nat.sub_self]
    rw [hd, List.set_cons_zero]
  simp only [strlncpy, hassert, Bool.false_eq_true, if_false, hsl, hmax, hnum, hmod, hcopy,
    hclen]
  have hcond : (0 : Int) ≤ (k : Int) ∧ (k : Int) < (dst.length : Int) := by omega
  simp only [hcond, and_self, if_true, Int.toNat_ofNat, hset]

/-- On a NUL-terminated source of exactly 2^31 characters with
`_num = 4294967295`, `strnlen` returns `-2^31` and `strlncpy` into a
destination of size 1 runs `memcpy` outside the arrays. -/
theorem strlncpy_long_source (s : List Int) (hs : (0 : Int) ∉ s)
    (hlen : s.length = 2147483648) :
    strnlen (some (cstr s)) 4294967295 = Run.ok (-2147483648) ∧
    strlncpy true Width.w64 [7] 1 (cstr s) 4294967295 = Run.out_of_bounds := by
  have hmin : min s.length 4294967295 = 2147483648 := by omega
  have hsl : strnlen (some (cstr s)) 4294967295 = Run.ok (-2147483648) := by
    rw [strnlen_cstr s _ hs, hmin]
    decide
  refine ⟨hsl, ?_⟩
  have hmax : wrap Width.w32 ((1 : Int) - 1) = 0 := by decide
  have hnum : ((-2147483648 : Int) % Width.w64.modulus).toNat = 18446744071562067968 := by
    decide
  have hmc : memcpy [7] (cstr s) 18446744071562067968 = Run.out_of_bounds := by
    simp [memcpy]
  have hlt : ((-2147483648 : Int) < 0) := by decide
  simp only [strlncpy, hsl, hmax, hlt, if_true, hnum, hmc]
  simp

/-- C19, as stated, fails on a source of 2^31 characters with
`_num = 4294967295` and a destination of size 1: `strnlen` returns
`int32_t(2^31) = -2^31`, so `num` is `-2^31` instead of `min(2^31, 0) = 0`,
and the `memcpy` of `num` characters goes outside the arrays. -/
theorem C19_long_source_breaks_strlncpy :
    strnlen (some (cstr (List.replicate 2147483648 1))) 4294967295
      = Run.ok (-2147483648) ∧
    strlncpy true Width.w64 [7] 1 (cstr (List.replicate 2147483648 1)) 4294967295
      = Run.out_of_bounds :=
  strlncpy_long_source (List.replicate 2147483648 1)
    (fun h => absurd (List.eq_of_mem_replicate h) (by decide))
    (List.length_replicate 2147483648 1)

/-- C19, amended: for every destination array of at least `_dstSize > 0`
characters, every NUL-terminated source and every `_num` for which the smaller
of `_num` and the index of the first NUL is at most 2^31 - 1, `strlncpy`
returns `k = min(strnlen(_src, _num), _dstSize - 1)`; afterwards
`_dst[0 .. k)` equals `_src[0 .. k)`, `_dst[k]` is NUL, and every character of
`_dst` at an index above `k`, so every one at an index `>= _dstSize`, is as
before. -/
theorem C19_strlncpy_result (assertAborts : Bool) (size_t : Width) (dst s : List Int)
    (_dstSize _num : Nat) (hs : (0 : Int) ∉ s) (hpos : 0 < _dstSize)
    (hsize : _dstSize ≤ 2147483647) (hdst : _dstSize ≤ dst.length)
    (hlen : min s.length _num < 2147483648) :
    strnlen (some (cstr s)) _num = Run.ok ((min s.length _num : Nat) : Int) ∧
    ∃ (k : Nat) (out : List Int),
      strlncpy assertAborts size_t dst (_dstSize : Int) (cstr s) _num = Run.ok ((k : Int), out) ∧
      k = min (min s.length _num) (_dstSize - 1) ∧
      out.take k = (cstr s).take k ∧
      out[k]? = some 0 ∧
      out.drop (k + 1) = dst.drop (k + 1) ∧
      out.length = dst.length := by
  have hsl : strnlen (some (cstr s)) _num = Run.ok ((min s.length _num : Nat) : Int) := by
    rw [strnlen_cstr s _num hs, wrap_natCast _ hlen]
  refine ⟨hsl, min (min s.length _num) (_dstSize - 1), _,
    strlncpy_cstr assertAborts size_t dst s _dstSize _num hs hpos hsize hdst hlen, rfl, ?_⟩
  have hks : min (min s.length _num) (_dstSize - 1) ≤ s.length := by omega
  have hkd : min (min s.length _num) (_dstSize - 1) < dst.length := by omega
  generalize min (min s.length _num) (_dstSize - 1) = k at hks hkd ⊢
  have hl : (s.take k).length = k := by
    simp only [List.length_take]; omega
  have htake : List.take k (cstr s) = List.take k s := by
    simp only [cstr]
    rw [List.take_append_of_le_length hks]
  refine ⟨?_, ?_, ?_, ?_⟩
  · rw [htake, List.take_left' hl]
  · rw [List.getElem?_append_right (by omega), hl]
    simp
  · have h1 : s.take k ++ 0 :: dst.drop (k + 1) = (s.take k ++ [0]) ++ dst.drop (k + 1) := by
      simp
    rw [h1, List.drop_left' (by simp only [List.length_append, hl, List.length_singleton])]
  · simp only [List.length_append, hl, List.length_cons, List.length_drop]
    omega

/-- C19 amended, on the source "abcd" with `_num = 10` into a destination of
5 characters declared of size 3: the call returns 2 and leaves "ab", NUL, and
the last two characters as they were. -/
theorem C19_strlncpy_result_witness :
    ((0 : Int) ∉ [97, 98, 99, 100] ∧ 0 < 3 ∧ 3 ≤ [9, 9, 9, 9, 9].length) ∧
    strlncpy true Width.w64 [9, 9, 9, 9, 9] 3 (cstr [97, 98, 99, 100]) 10
      = Run.ok (2, [97, 98, 0, 9, 9]) ∧
    strnlen (some (cstr [97, 98, 99, 100])) 10 = Run.ok 4 :=
  ⟨by decide, by decide,
   (C19_strlncpy_result true Width.w64 [9, 9, 9, 9, 9] [97, 98, 99, 100] 3 10
      (by decide) (by decide) (by decide) (by decide) (by decide)).1⟩

end rtm
